import Mathlib

/-!
Verification of the enact core (content-addressed resource store, journaled
invocations, replay engine) against its design specification.

The repository ships only documentation and example notebooks; the executable
core (resource model, packer, store, invocation builder, replay engine) is not
part of the source tree.  All definitions below are therefore modelled from the
specification text (spec.md sections 3, 4, 6 and 8) and from the behaviour
documented in the README and the concept notebook.  Each definition's doc
comment records what it models.
-/

set_option maxHeartbeats 1000000
set_option maxRecDepth 100000

/-- Modelled from the spec: the recursive FieldValue universe of section 3 —
signed integer, IEEE-754 double (represented by its 64 raw bits), boolean,
UTF-8 string, byte string, the null value, ordered sequences, string-keyed
maps, resources `(type-id, named fields)`, type references and store
references.  A `ref` carries the referenced resource's digest, which the model
represents as the canonical serialized byte list (see `digest`). -/
inductive FieldValue where
  | int (i : Int)
  | double (bits : Nat)
  | bool (b : Bool)
  | str (s : String)
  | bytes (bs : List Nat)
  | null
  | seq (xs : List FieldValue)
  | map (es : List (String × FieldValue))
  | res (typeId : String) (fields : List (String × FieldValue))
  | typeRef (typeId : String)
  | ref (d : List Nat)

/-- Modelled from the spec: canonicalization of an IEEE-754 double bit
pattern — all NaN payloads collapse to one canonical quiet NaN and -0.0 is
canonicalized to +0.0 (spec section 4.3). -/
def canonDouble (bits : Nat) : Nat :=
  let e := bits / 2 ^ 52 % 2 ^ 11
  let m := bits % 2 ^ 52
  if e = 2047 ∧ m ≠ 0 then 0x7FF8000000000000
  else if bits = 2 ^ 63 then 0
  else bits

/-- Modelled from the spec: the UTF-8 byte encoding of a map key, represented
by the code-point sequence (UTF-8 preserves the bytewise order and equality of
code-point sequences, so map-key comparison is unaffected). -/
def strBytes (s : String) : List Nat :=
  s.data.map Char.toNat

/-- Lexicographic bytewise-ascending comparison of key byte sequences
(spec section 4.3, rule 3). -/
def bytesLe : List Nat → List Nat → Bool
  | [], _ => true
  | _ :: _, [] => false
  | a :: as, b :: bs => if a < b then true else if b < a then false else bytesLe as bs

/-- Key order used to canonicalize map entries: bytewise ascending over the
UTF-8 encoding of the key. -/
def keyLe (s t : String) : Bool :=
  bytesLe (strBytes s) (strBytes t)

/-- Insert one map entry into a key-sorted entry list. -/
def insertByKey (p : String × FieldValue) :
    List (String × FieldValue) → List (String × FieldValue)
  | [] => [p]
  | q :: qs => if keyLe p.1 q.1 then p :: q :: qs else q :: insertByKey p qs

/-- Sort map entries by key, bytewise ascending (spec section 4.3, rule 3). -/
def sortByKey (es : List (String × FieldValue)) : List (String × FieldValue) :=
  es.foldr insertByKey []

mutual

/-- Modelled from the spec: canonicalization of a field value prior to
hashing — map entries are sorted by key bytewise ascending, doubles are
canonicalized, and everything else is canonicalized recursively
(spec section 4.3). -/
def canonicalize : FieldValue → FieldValue
  | .int i => .int i
  | .double b => .double (canonDouble b)
  | .bool b => .bool b
  | .str s => .str s
  | .bytes bs => .bytes bs
  | .null => .null
  | .seq xs => .seq (canonList xs)
  | .map es => .map (sortByKey (canonEntries es))
  | .res t fs => .res t (canonEntries fs)
  | .typeRef t => .typeRef t
  | .ref d => .ref d

/-- Canonicalize every element of a sequence. -/
def canonList : List FieldValue → List FieldValue
  | [] => []
  | v :: vs => canonicalize v :: canonList vs

/-- Canonicalize the value of every (key, value) entry. -/
def canonEntries : List (String × FieldValue) → List (String × FieldValue)
  | [] => []
  | (k, v) :: es => (k, canonicalize v) :: canonEntries es

end

/-- Big-endian 64-bit encoding of a natural number (spec section 6). -/
def be64 (n : Nat) : List Nat :=
  [n / 2 ^ 56 % 256, n / 2 ^ 48 % 256, n / 2 ^ 40 % 256, n / 2 ^ 32 % 256,
   n / 2 ^ 24 % 256, n / 2 ^ 16 % 256, n / 2 ^ 8 % 256, n % 256]

/-- Minimal big-endian byte representation of a natural number. -/
def natBytesBE (n : Nat) : List Nat :=
  if _h : n < 256 then [n]
  else natBytesBE (n / 256) ++ [n % 256]
  decreasing_by exact Nat.div_lt_self (by omega) (by omega)

/-- Length-prefixed encoding of a string (spec section 6: strings are
length-prefixed with 64-bit unsigned big-endian). -/
def lenStr (s : String) : List Nat :=
  be64 (strBytes s).length ++ strBytes s

/-- Modelled from the spec: encoding of an integer — 64-bit signed big-endian
two's complement when it fits, otherwise a bignum tag followed by a
length-prefixed sign byte and magnitude (spec section 6; the bignum layout is
a faithful injective stand-in for variable-length two's complement, which no
observable behaviour depends on). -/
def intBytes (i : Int) : List Nat :=
  if -(2 ^ 63) ≤ i ∧ i < 2 ^ 63 then 0 :: be64 (i % (2 ^ 64 : Int)).toNat
  else 1 :: (if i < 0 then 1 else 0) :: be64 (natBytesBE i.natAbs).length ++ natBytesBE i.natAbs

mutual

/-- Modelled from the spec: the canonical binary encoding of a packed field
value (spec sections 4.3 and 6) — tagged, fixed-endian, length-prefixed.
Packing a Ref encodes the Ref's digest, never the referred-to content, which
is what makes the store graph a Merkle DAG. -/
def serialize : FieldValue → List Nat
  | .int i => intBytes i
  | .double b => 2 :: be64 b
  | .bool b => [3, if b then 1 else 0]
  | .str s => 4 :: lenStr s
  | .bytes bs => 5 :: be64 bs.length ++ bs
  | .null => [6]
  | .seq xs => 7 :: be64 xs.length ++ serializeList xs
  | .map es => 8 :: be64 es.length ++ serializeEntries es
  | .res t fs => 9 :: lenStr t ++ be64 fs.length ++ serializeEntries fs
  | .typeRef t => 10 :: lenStr t
  | .ref d => 11 :: be64 d.length ++ d

/-- Serialize the elements of a sequence in order. -/
def serializeList : List FieldValue → List Nat
  | [] => []
  | v :: vs => serialize v ++ serializeList vs

/-- Serialize (key, value) entries in order, keys length-prefixed. -/
def serializeEntries : List (String × FieldValue) → List Nat
  | [] => []
  | (k, v) :: es => lenStr k ++ serialize v ++ serializeEntries es

end

/-- Modelled from the spec: the digest of a resource is the 256-bit hash of
the canonical byte encoding of its packed form (spec section 3).  The model
represents the hash by the canonical byte encoding itself: this is an
injective digest function, which is exactly the behaviour the spec assumes of
the cryptographic hash up to the negligible collision probability of
invariant 2 (section 8). -/
def digest (v : FieldValue) : List Nat :=
  serialize (canonicalize v)

mutual

/-- All reference digests embedded in a field value (the outgoing Merkle-DAG
edges of a packed resource). -/
def refsOf : FieldValue → List (List Nat)
  | .seq xs => refsList xs
  | .map es => refsEntries es
  | .res _ fs => refsEntries fs
  | .ref d => [d]
  | _ => []

/-- References of every element of a sequence. -/
def refsList : List FieldValue → List (List Nat)
  | [] => []
  | v :: vs => refsOf v ++ refsList vs

/-- References of every entry value. -/
def refsEntries : List (String × FieldValue) → List (List Nat)
  | [] => []
  | (_, v) :: es => refsOf v ++ refsEntries es

end

/-- Modelled from the spec: a reference into a store — a digest paired with
nothing else that affects identity (the cached resource and type tag of the
source never influence equality, which reduces to digest equality,
spec section 4.7). -/
structure Ref where
  digest : List Nat
  deriving DecidableEq

/-- Modelled from the spec: the storage backend state, a mapping from digest
to the packed (canonical) resource (spec section 4.4, in-memory backend). -/
abbrev Store := List (List Nat × FieldValue)

/-- Look a digest up in the store. -/
def storeGet (s : Store) (d : List Nat) : Option FieldValue :=
  match s with
  | [] => none
  | (d2, v) :: rest => if d2 = d then some v else storeGet rest d

/-- Modelled from the spec: `commit(resource) → Ref` packs, hashes and
persists the resource and returns its reference; storing an already-present
digest is a no-op (spec sections 4.4 and 4.5). -/
def commit (s : Store) (v : FieldValue) : Store × Ref :=
  let c := canonicalize v
  let d := serialize c
  (if (storeGet s d).isSome then s else (d, c) :: s, ⟨d⟩)

/-- Registered type ids (a model of the type registry of spec section 4.1,
reduced to the part checkout needs: which type-ids can be unpacked). -/
abbrev Registry := List String

mutual

/-- Does the registry know every resource type-id occurring in the value
(needed to unpack it at checkout, spec sections 4.1 and 4.5)? -/
def typeRegistered (reg : Registry) : FieldValue → Bool
  | .res t fs => decide (t ∈ reg) && typeRegisteredEntries reg fs
  | .seq xs => typeRegisteredList reg xs
  | .map es => typeRegisteredEntries reg es
  | _ => true

/-- Registry check for each element of a sequence. -/
def typeRegisteredList (reg : Registry) : List FieldValue → Bool
  | [] => true
  | v :: vs => typeRegistered reg v && typeRegisteredList reg vs

/-- Registry check for each entry value. -/
def typeRegisteredEntries (reg : Registry) : List (String × FieldValue) → Bool
  | [] => true
  | (_, v) :: es => typeRegistered reg v && typeRegisteredEntries reg es

end

/-- Failure conditions of store operations (spec section 7). -/
inductive StoreErr where
  | notFound
  | registryError
  deriving DecidableEq

/-- Modelled from the spec: `checkout(ref) → resource` retrieves the packed
form via the backend and unpacks it using the registry; `NotFound` if the
digest is absent, a registry error if a type-id is unknown
(spec section 4.5). -/
def checkout (reg : Registry) (s : Store) (r : Ref) : Except StoreErr FieldValue :=
  match storeGet s r.digest with
  | none => .error .notFound
  | some v => if typeRegistered reg v then .ok v else .error .registryError

/-- Modelled from the spec: `deepcopy(ref)` produces an independent Ref with
the identical digest (spec section 4.5). -/
def deepcopy (r : Ref) : Ref :=
  ⟨r.digest⟩

/-- Modelled from the spec: `modify(ref)` checks the resource out, applies the
caller's mutation, commits the mutated clone and rebinds the ref to the new
digest; the old digest is unaffected (spec section 4.5).  The scoped
acquisition is modelled by passing the mutation as a function. -/
def Ref.modify (reg : Registry) (s : Store) (r : Ref) (f : FieldValue → FieldValue) :
    Except StoreErr (Store × Ref) :=
  match checkout reg s r with
  | .error e => .error e
  | .ok v => .ok (commit s (f v))

/-- Modelled from the spec: the store obtained from the empty store by a
sequence of commits (every reachable store state, spec section 3
invariant 5). -/
def buildStore (vs : List FieldValue) : Store :=
  vs.foldl (fun s v => (commit s v).1) ([] : Store)

/-- One Merkle edge of the store graph: the resource stored at `d1` embeds a
Ref with digest `d2` (spec section 3, invariant 1). -/
def RefStep (s : Store) (d1 d2 : List Nat) : Prop :=
  ∃ v, storeGet s d1 = some v ∧ d2 ∈ refsOf v

/-- Every store entry holds a value whose serialization is its key (true of
every store built by commits). -/
def StoreWF (s : Store) : Prop :=
  ∀ d v, storeGet s d = some v → serialize v = d

mutual

/-- Modelled from the spec: structural equality of field values — same
constructor and recursively equal contents, where doubles compare after
canonicalization and map entries compare as key-sorted lists, so that key
order is not significant (spec sections 3 and 8, invariant 1). -/
inductive StructEq : FieldValue → FieldValue → Prop where
  | int (i : Int) : StructEq (.int i) (.int i)
  | double (b1 b2 : Nat) : canonDouble b1 = canonDouble b2 →
      StructEq (.double b1) (.double b2)
  | bool (b : Bool) : StructEq (.bool b) (.bool b)
  | str (s : String) : StructEq (.str s) (.str s)
  | bytes (bs : List Nat) : StructEq (.bytes bs) (.bytes bs)
  | null : StructEq .null .null
  | seq (xs ys : List FieldValue) : StructEqList xs ys →
      StructEq (.seq xs) (.seq ys)
  | map (es fs : List (String × FieldValue)) :
      StructEqEntries (sortByKey es) (sortByKey fs) →
      StructEq (.map es) (.map fs)
  | res (t : String) (es fs : List (String × FieldValue)) :
      StructEqEntries es fs → StructEq (.res t es) (.res t fs)
  | typeRef (t : String) : StructEq (.typeRef t) (.typeRef t)
  | ref (d : List Nat) : StructEq (.ref d) (.ref d)

/-- Pointwise structural equality of sequences. -/
inductive StructEqList : List FieldValue → List FieldValue → Prop where
  | nil : StructEqList [] []
  | cons {v w vs ws} : StructEq v w → StructEqList vs ws →
      StructEqList (v :: vs) (w :: ws)

/-- Pointwise structural equality of entry lists: equal keys in equal order,
structurally equal values. -/
inductive StructEqEntries :
    List (String × FieldValue) → List (String × FieldValue) → Prop where
  | nil : StructEqEntries [] []
  | cons {k v w es fs} : StructEq v w → StructEqEntries es fs →
      StructEqEntries ((k, v) :: es) ((k, w) :: fs)

end

mutual

/-- Size measure on field values, used for strong induction. -/
def fvSize : FieldValue → Nat
  | .seq xs => 1 + fvSizeList xs
  | .map es => 1 + fvSizeEntries es
  | .res _ fs => 1 + fvSizeEntries fs
  | _ => 1

/-- Size of a sequence of field values. -/
def fvSizeList : List FieldValue → Nat
  | [] => 0
  | v :: vs => 1 + fvSize v + fvSizeList vs

/-- Size of an entry list. -/
def fvSizeEntries : List (String × FieldValue) → Nat
  | [] => 0
  | (_, v) :: es => 1 + fvSize v + fvSizeEntries es

end

/-- Modelled from the spec: an invocation node — the request (invokable
identified by its registry name, whose digest the registry derives from the
qualified name, and the input value) together with the response (output or
raised condition, origin flag, and the ordered child invocations); spec
section 3.  Carrying the values rather than their refs loses no information
because digests are a function of the value. -/
inductive Invocation where
  | mk (invokable : String) (inputVal : FieldValue) (output : Option FieldValue)
      (raised : Option FieldValue) (raisedHere : Bool) (children : List Invocation)

/-- The callable of the invocation's request. -/
def Invocation.invokable : Invocation → String
  | .mk c _ _ _ _ _ => c

/-- The input of the invocation's request. -/
def Invocation.inputVal : Invocation → FieldValue
  | .mk _ i _ _ _ _ => i

/-- The output field of the invocation's response. -/
def Invocation.output : Invocation → Option FieldValue
  | .mk _ _ o _ _ _ => o

/-- The raised field of the invocation's response. -/
def Invocation.raised : Invocation → Option FieldValue
  | .mk _ _ _ r _ _ => r

/-- The raised-here flag of the invocation's response. -/
def Invocation.raisedHere : Invocation → Bool
  | .mk _ _ _ _ rh _ => rh

/-- The ordered child invocations of the invocation's response. -/
def Invocation.children : Invocation → List Invocation
  | .mk _ _ _ _ _ cs => cs

/-- An invocation is complete when its response carries an output or a raised
condition; both fields null means incomplete (spec section 3, invariant 3). -/
def Invocation.complete (inv : Invocation) : Bool :=
  inv.output.isSome || inv.raised.isSome

/-- A freshly opened invocation node: request attached, response empty. -/
def blankInv (c : String) (i : FieldValue) : Invocation :=
  .mk c i none none false []

/-- The result a parent body observes for one child call: the child's output,
or the condition it raised. -/
abbrev Outcome := Except FieldValue FieldValue

/-- Modelled from the spec: the body of a registered callable as the builder
observes it — a deterministic decision tree over the input and the outcomes of
previous subcalls (spec section 4.7 requires exactly this determinism).  A
body either returns, raises, performs one nested call, gathers a batch of
concurrent calls (cooperative async mode, children in completion order), or
spawns background calls it never awaits. -/
inductive Body where
  | ret (v : FieldValue)
  | raise (e : FieldValue)
  | call (callee : String) (input : FieldValue) (k : FieldValue → Body)
  | gather (calls : List (String × FieldValue)) (k : List Outcome → Body)
  | spawn (calls : List (String × FieldValue)) (k : Body)

/-- The registered callables of a process: name to body. -/
abbrev Env := String → FieldValue → Body

/-- Identifies one call during replay matching: the callable and the digest of
its input (spec section 4.7: equality of refs reduces to digest equality). -/
structure CallSig where
  callee : String
  inputDigest : List Nat
  deriving DecidableEq

/-- Errors of the execution and replay engine (spec section 7):
divergence between the recorded and the live call in strict replay, and a
child invocation that was never finalized inside its parent. -/
inductive EngErr where
  | replayErr (expected observed : CallSig)
  | incompleteSub (index : Nat) (callee : String) (input : FieldValue)

/-- First child that is not complete, with its position. -/
def firstIncomplete : List Invocation → Option (Nat × Invocation)
  | [] => none
  | c :: cs =>
    if c.complete then (firstIncomplete cs).map (fun p => (p.1 + 1, p.2))
    else some (0, c)

/-- The outcome a parent observes for a finalized child. -/
def outcomeOf (child : Invocation) : Outcome :=
  match child.output with
  | some v => .ok v
  | none =>
    match child.raised with
    | some e => .error e
    | none => .error .null

/-- Modelled from the spec: replaying one recorded child (spec section 4.7,
rule 3) — a recorded output is returned directly without running the body; a
recorded raised condition is re-raised by default, or replaced by the value an
`exception_override` supplies, completing the child with that output; an
incomplete recorded child is re-entered (the `rerun` callback closes over the
engine at the remaining depth). -/
def runChildWith (ov : FieldValue → Option FieldValue)
    (rerun : Invocation → Except EngErr Invocation) (t : Invocation) :
    Except EngErr Invocation :=
  if t.output.isSome then .ok t
  else
    match t.raised with
    | some e =>
      match ov e with
      | some v => .ok (.mk t.invokable t.inputVal (some v) none false t.children)
      | none => .ok t
    | none => rerun t

/-- Run a batch of gathered calls against the remaining recorded children:
each call is matched positionally against the next recorded child (divergence
raises the replay error naming both); calls beyond the recorded suffix execute
fresh.  Returns the finalized children, their outcomes, and the unconsumed
recorded suffix. -/
def runGather (rc : Invocation → Except EngErr Invocation)
    (ex : String → FieldValue → Except EngErr Invocation) :
    List (String × FieldValue) → List Invocation →
    Except EngErr (List Invocation × List Outcome × List Invocation)
  | [], ts => .ok ([], [], ts)
  | (c, i) :: calls, [] =>
    match ex c i with
    | .error err => .error err
    | .ok child =>
      (runGather rc ex calls []).map
        (fun p => (child :: p.1, outcomeOf child :: p.2.1, p.2.2))
  | (c, i) :: calls, t :: ts =>
    if t.invokable = c ∧ digest t.inputVal = digest i then
      match rc t with
      | .error err => .error err
      | .ok child =>
        (runGather rc ex calls ts).map
          (fun p => (child :: p.1, outcomeOf child :: p.2.1, p.2.2))
    else .error (.replayErr ⟨t.invokable, digest t.inputVal⟩ ⟨c, digest i⟩)

/-- Consume the recorded entries corresponding to spawned background calls:
each spawned call re-registers a fresh unfinished child and skips over its
(necessarily blank) recorded entry when one is present. -/
def spawnConsume : List (String × FieldValue) → List Invocation →
    List Invocation × List Invocation
  | [], ts => ([], ts)
  | (c, i) :: calls, [] =>
    (blankInv c i :: (spawnConsume calls []).1, [])
  | (c, i) :: calls, t :: ts =>
    if t.invokable = c ∧ digest t.inputVal = digest i ∧ t.complete = false ∧
        t.children.isEmpty then
      let p := spawnConsume calls ts
      (blankInv c i :: p.1, p.2)
    else ((((c, i) :: calls).map (fun q => blankInv q.1 q.2)), t :: ts)

/-- Modelled from the spec: the builder/replay loop for one invocation body
(spec sections 4.6 and 4.7).  `rc` replays one recorded child, `ex` executes
one fresh call; `acc` is the finalized children so far and `ts` the remaining
recorded children.  On return the node is finalized, after checking that every
registered child completed (`IncompleteSubinvocation` otherwise, spec
section 5); on a raise the condition is recorded with `raised_here` set; a
nested call is matched against the next recorded child — digest-equal means
the recorded child is replayed in place of execution, anything else is a
strict-replay divergence; calls beyond the recorded children execute normally,
and an unconsumed recorded suffix is simply dropped. -/
def runLoop (rc : Invocation → Except EngErr Invocation)
    (ex : String → FieldValue → Except EngErr Invocation) :
    Body → String → FieldValue → List Invocation → List Invocation →
    Except EngErr Invocation
  | .ret v, nm, inp, acc, _ =>
    match firstIncomplete acc with
    | some p => .error (.incompleteSub p.1 p.2.invokable p.2.inputVal)
    | none => .ok (.mk nm inp (some v) none false acc)
  | .raise e, nm, inp, acc, _ => .ok (.mk nm inp none (some e) true acc)
  | .call c i k, nm, inp, acc, [] =>
    match ex c i with
    | .error err => .error err
    | .ok child =>
      match child.output with
      | some v => runLoop rc ex (k v) nm inp (acc ++ [child]) []
      | none => .ok (.mk nm inp none child.raised false (acc ++ [child]))
  | .call c i k, nm, inp, acc, t :: ts =>
    if t.invokable = c ∧ digest t.inputVal = digest i then
      match rc t with
      | .error err => .error err
      | .ok child =>
        match child.output with
        | some v => runLoop rc ex (k v) nm inp (acc ++ [child]) ts
        | none => .ok (.mk nm inp none child.raised false (acc ++ [child]))
    else .error (.replayErr ⟨t.invokable, digest t.inputVal⟩ ⟨c, digest i⟩)
  | .gather calls k, nm, inp, acc, ts =>
    match runGather rc ex calls ts with
    | .error err => .error err
    | .ok p => runLoop rc ex (k p.2.1) nm inp (acc ++ p.1) p.2.2
  | .spawn calls k, nm, inp, acc, ts =>
    let p := spawnConsume calls ts
    runLoop rc ex k nm inp (acc ++ p.1) p.2

/-- Modelled from the spec: run or replay one invocation node at bounded call
depth (spec sections 4.6 and 4.7).  A response that already has an output is
returned directly; otherwise the body is re-entered with the recorded children
as the replay template (an empty template, as in a fresh invocation, makes
every call execute normally).  Depth 0 leaves the node unfinished. -/
def runNode (env : Env) (ov : FieldValue → Option FieldValue) :
    Nat → Invocation → Except EngErr Invocation
  | 0, inv => if inv.output.isSome then .ok inv else .ok (blankInv inv.invokable inv.inputVal)
  | d + 1, inv =>
    if inv.output.isSome then .ok inv
    else
      runLoop (runChildWith ov (runNode env ov d))
        (fun c i => runNode env ov d (blankInv c i))
        (env inv.invokable inv.inputVal) inv.invokable inv.inputVal [] inv.children

/-- The trivial exception override: re-raise every recorded condition. -/
def noOv : FieldValue → Option FieldValue := fun _ => none

/-- Modelled from the spec: `invoke` — journal a fresh execution of a
registered callable on an input (spec section 4.6). -/
def invoke (env : Env) (d : Nat) (c : String) (i : FieldValue) :
    Except EngErr Invocation :=
  runNode env noOv d (blankInv c i)

/-- Modelled from the spec: `Invocation.replay(exception_override)` — re-run a
recorded invocation, reusing recorded children where the call sequence
matches (spec section 4.7). -/
def Invocation.replay (env : Env) (ov : FieldValue → Option FieldValue)
    (d : Nat) (inv : Invocation) : Except EngErr Invocation :=
  runNode env ov d inv

/-- Rebuild a node with cleared response and the given children (the builder's
mark of an incomplete ancestor after a rewind). -/
def clearNode (inv : Invocation) (cs : List Invocation) : Invocation :=
  .mk inv.invokable inv.inputVal none none false cs

mutual

/-- Modelled from the spec: remove up to `n` trailing leaf calls from one
subtree, rightmost first; a completed leaf is removed outright, an unfinished
leaf is not a recorded call and is skipped, and an interior node that lost
leaves is kept with its response cleared (spec section 6:
`Invocation.rewind`).  Returns the remaining subtree (none when the node
itself was removed) and the removals still owed. -/
def removeLeaves : Invocation → Nat → Option Invocation × Nat
  | inv, 0 => (some inv, 0)
  | .mk c i o r rh [], n + 1 =>
    if o.isSome || r.isSome then (none, n) else (some (.mk c i o r rh []), n + 1)
  | .mk c i _ _ _ (ch :: chs), n + 1 =>
    let p := removeLeavesList (ch :: chs) (n + 1)
    match p.1 with
    | [] => (none, p.2)
    | c2 :: cs2 => (some (.mk c i none none false (c2 :: cs2)), p.2)

/-- Remove up to `n` trailing leaf calls from a forest, rightmost tree
first. -/
def removeLeavesList (cs : List Invocation) (n : Nat) : List Invocation × Nat :=
  match cs with
  | [] => ([], n)
  | c :: rest =>
    let p := removeLeavesList rest n
    match p.2 with
    | 0 => (c :: p.1, 0)
    | m + 1 =>
      match removeLeaves c (m + 1) with
      | (none, n2) => (p.1, n2)
      | (some c2, n2) => (c2 :: p.1, n2)

end

/-- Modelled from the spec: `Invocation.rewind(n)` — a new invocation with the
last `n` leaf calls (depth-first from the right) removed, the affected
ancestors marked incomplete, and the root's own response cleared so a replay
re-enters it (spec section 6; the notebook's `rewind(num_calls=0)` clears only
the root output). -/
def Invocation.rewind (inv : Invocation) (n : Nat) : Invocation :=
  clearNode inv (removeLeavesList inv.children n).1

mutual

/-- Number of recorded leaf calls in a subtree: completed childless nodes. -/
def leafCalls : Invocation → Nat
  | .mk _ _ o r _ [] => if o.isSome || r.isSome then 1 else 0
  | .mk _ _ _ _ _ (c :: cs) => leafCallsList (c :: cs)

/-- Recorded leaf calls of a forest. -/
def leafCallsList : List Invocation → Nat
  | [] => 0
  | c :: cs => leafCalls c + leafCallsList cs

end

/-- Encode an optional response field as a field value. -/
def optFV : Option FieldValue → FieldValue
  | none => .null
  | some v => .seq [v]

mutual

/-- An invocation rendered as the resource it commits to the store
(spec section 3: Invocation is itself a committable resource). -/
def invToFV : Invocation → FieldValue
  | .mk c i o r rh cs =>
    .res ("Invocation")
      [(("invokable"), .str c), (("input"), i), (("output"), optFV o),
       (("raised"), optFV r), (("raised_here"), .bool rh),
       (("children"), .seq (invListToFV cs))]

/-- Children rendered as resources. -/
def invListToFV : List Invocation → List FieldValue
  | [] => []
  | c :: cs => invToFV c :: invListToFV cs

end

/-- The digest under which an invocation would be committed. -/
def digestInv (inv : Invocation) : List Nat :=
  digest (invToFV inv)

mutual

/-- Response exclusivity (spec section 3, invariant 3): no node of the tree
has both an output and a raised condition. -/
def invOK : Invocation → Bool
  | .mk _ _ o r _ cs => !(o.isSome && r.isSome) && invListOK cs

/-- Response exclusivity over a forest. -/
def invListOK : List Invocation → Bool
  | [] => true
  | c :: cs => invOK c && invListOK cs

end

mutual

/-- A fully finalized journal: every node of the invocation tree is complete
(spec section 4.6 — the builder finalizes every node it opens before the
root invocation is returned as completed). -/
def allComplete : Invocation → Bool
  | .mk _ _ o r _ cs => (o.isSome || r.isSome) && allCompleteList cs

/-- Full finalization over a forest. -/
def allCompleteList : List Invocation → Bool
  | [] => true
  | c :: cs => allComplete c && allCompleteList cs

end

mutual

/-- `RewNode c t`: `t` is a version of the recorded node `c` whose response
was cleared by a rewind and whose recorded children are a rewound prefix of
`c`'s. -/
inductive RewNode : Invocation → Invocation → Prop where
  | mk {c t : Invocation} : t.invokable = c.invokable → t.inputVal = c.inputVal →
      t.output = none → t.raised = none → RewTail c.children t.children →
      RewNode c t

/-- `RewTail cs ts`: `ts` is what a rewind can leave of the recorded children
`cs` — an untouched prefix, optionally followed by one partially rewound
node, with the rest removed. -/
inductive RewTail : List Invocation → List Invocation → Prop where
  | nil (cs : List Invocation) : RewTail cs []
  | part {c t : Invocation} (rest : List Invocation) :
      RewNode c t → RewTail (c :: rest) [t]
  | cons (c : Invocation) {cs ts : List Invocation} :
      RewTail cs ts → RewTail (c :: cs) (c :: ts)

end

/-- Modelled from the source notebook (Resources and Resource Wrappers): a
declared field content before it crosses the model boundary — either a native
enact value or a foreign (non-resource) python value, identified by its type
and the data its wrapper preserves. -/
inductive RawValue where
  | native (v : FieldValue)
  | foreign (ftype : String) (payload : FieldValue)

/-- Modelled from the source notebook: a registered `TypeWrapper` — the
foreign type it wraps, the type-id of the wrapper resource, and how the
foreign value's data becomes the wrapper's fields. -/
structure TypeWrapper where
  wrapped_type : String
  type_id : String
  wrap_fields : FieldValue → List (String × FieldValue)

/-- The registered wrappers of a process (spec section 4.1:
`lookup_wrapper_for`). -/
abbrev WrapperRegistry := List TypeWrapper

/-- Find the wrapper registered for a foreign type. -/
def lookupWrapper (wreg : WrapperRegistry) (ft : String) : Option TypeWrapper :=
  match wreg with
  | [] => none
  | w :: rest => if w.wrapped_type = ft then some w else lookupWrapper rest ft

/-- Modelled from the source notebook: `enact.wrap` — native values pass
through, a foreign value becomes the wrapper resource built from its data;
none when no wrapper is registered (spec section 4.2, wrapping). -/
def wrap (wreg : WrapperRegistry) : RawValue → Option FieldValue
  | .native v => some v
  | .foreign ft payload =>
    (lookupWrapper wreg ft).map (fun w => .res w.type_id (w.wrap_fields payload))

/-- Modelled from the source notebook: `field_values()` — the enact-facing
enumeration of a resource's field values, with wrapping applied automatically
before values cross the model boundary. -/
def field_values (wreg : WrapperRegistry) :
    List (String × RawValue) → Option (List FieldValue)
  | [] => some []
  | (_, rv) :: rest =>
    match wrap wreg rv, field_values wreg rest with
    | some v, some vs => some (v :: vs)
    | _, _ => none

/-- The foreign counter type of the concepts notebook. -/
def myCounterType : String := "MyCounter"

/-- Type-id of the counter's registered wrapper. -/
def myCounterWrapperId : String := "MyCounterWrapper"

/-- Modelled from the source notebook: `MyCounterWrapper`, wrapping a
`MyCounter` by storing its count. -/
def myCounterWrapper : TypeWrapper :=
  ⟨myCounterType, myCounterWrapperId, fun p => [(("count"), p)]⟩

/-- The `Nested` resource of the notebook: one field holding a foreign
`MyCounter` with count 0. -/
def nestedFields : List (String × RawValue) :=
  [(("counter"), .foreign myCounterType (.int 0))]

/-- Name of the registered timestamp formatter of the concepts notebook. -/
def ftsName : String := "format_timestamp"

/-- Name of the invokable that reads the wall clock (concepts notebook,
replays and non-determinism). -/
def fctName : String := "FormatCurrentTime"

/-- Modelled from the source notebook: `FormatCurrentTime` calls the
registered `format_timestamp` on an unregistered wall-clock read; the clock
value is a parameter of the environment, so two runs see different inputs. -/
def s5env (now : Int) : Env := fun c _ =>
  if c = fctName then .call ftsName (.int now) (fun o => .ret o)
  else if c = ftsName then .ret (.str ("formatted"))
  else .ret .null

/-- First wall-clock reading of the divergence scenario. -/
def s5now1 : Int := 1719957725

/-- Second wall-clock reading of the divergence scenario. -/
def s5now2 : Int := 1719957726

/-- The recorded invocation of `FormatCurrentTime` at the first clock
reading. -/
def s5recordedInv : Invocation :=
  match invoke (s5env s5now1) 3 fctName .null with
  | .ok j => j
  | .error _ => blankInv fctName .null

/-- The recorded invocation rewound by zero calls: only the root output is
dropped, forcing re-execution against the recorded children. -/
def s5rewound : Invocation :=
  s5recordedInv.rewind 0

/-- Type-id of the input-request condition (spec section 4.8). -/
def inputRequestId : String := "InputRequest"

/-- Modelled from the spec: the `InputRequest` condition raised by
`request_input(requested_type, for_value, context)` (spec section 4.8). -/
def inputRequest (forV : FieldValue) : FieldValue :=
  .res inputRequestId
    [(("requested_type"), .typeRef ("int")), (("for_value"), forV),
     (("context"), .null)]

/-- Name of the per-roll input-requesting invokable (concepts notebook,
requesting and resolving multiple inputs). -/
def aurName : String := "AsyncUserRoll"

/-- Name of the batch invokable that gathers the ten rolls. -/
def csdrName : String := "CrowdSourcedDiceRoll"

/-- Sum of the integer outcomes of a gather. -/
def sumOutcomes : List Outcome → Int
  | [] => 0
  | .ok (.int i) :: rest => i + sumOutcomes rest
  | _ :: rest => sumOutcomes rest

/-- First raised condition among gathered outcomes. -/
def firstError : List Outcome → Option FieldValue
  | [] => none
  | .error e :: _ => some e
  | _ :: rest => firstError rest

/-- The ten gathered calls of `CrowdSourcedDiceRoll`. -/
def c6calls : List (String × FieldValue) :=
  (List.range 10).map (fun i => (aurName, FieldValue.int (i : Int)))

/-- Modelled from the source notebook: `AsyncUserRoll(i)` raises
`request_input(int, for_value=i)`; `CrowdSourcedDiceRoll` gathers the ten
rolls, re-raises the first recorded exception if any outcome failed, and
otherwise returns the sum. -/
def c6env : Env := fun c i =>
  if c = aurName then .raise (inputRequest i)
  else if c = csdrName then
    .gather c6calls (fun outs =>
      match firstError outs with
      | some e => .raise e
      | none => .ret (.int (sumOutcomes outs)))
  else .ret .null

/-- Modelled from the source notebook: the `exception_override` that resolves
a recorded `InputRequest` with for-value `i` by injecting `(i mod 7) + 1`. -/
def c6override : FieldValue → Option FieldValue
  | .res t [_, (_, .int i), _] =>
    if t = inputRequestId then some (.int (i % 7 + 1)) else none
  | _ => none

/-- The journaled first execution of `CrowdSourcedDiceRoll`. -/
def c6invoked : Except EngErr Invocation :=
  invoke c6env 3 csdrName .null

/-- The recorded invocation, extracted. -/
def c6recordedInv : Invocation :=
  match c6invoked with
  | .ok j => j
  | .error _ => blankInv csdrName .null

/-- The replay of the recorded run under the resolving override. -/
def c6replayed : Except EngErr Invocation :=
  c6recordedInv.replay c6env c6override 3

/-- Name of the asynchronously rolled die (concepts notebook, support for
asyncio). -/
def adrName : String := "AsyncDieRoll"

/-- Modelled from the source notebook: `WaitForFirstResult` spawns the die
rolls as background tasks and returns after the first result without awaiting
the rest. -/
def c9env : Env := fun c i =>
  if c = ("WaitForFirstResult") then
    .spawn [(adrName, .int 0), (adrName, .int 1), (adrName, .int 2)] (.ret (.int 4))
  else if c = adrName then .ret (.int 4)
  else .ret i

/-- A Ref cycle in a store: a digest from which the Merkle edges of
`RefStep` lead back to itself. -/
def hasRefCycle (s : Store) : Prop :=
  ∃ d, Relation.TransGen (RefStep s) d d

theorem bytesLe_total (a b : List Nat) : bytesLe a b = true ∨ bytesLe b a = true := by
  induction a generalizing b with
  | nil => exact .inl rfl
  | cons x xs ih =>
    cases b with
    | nil => exact .inr rfl
    | cons y ys =>
      simp only [bytesLe]
      rcases Nat.lt_trichotomy x y with h | h | h
      · left; simp [h]
      · subst h
        simp only [Nat.lt_irrefl, if_false]
        exact ih ys
      · right; simp [h]

theorem bytesLe_trans {a b c : List Nat} (h1 : bytesLe a b = true)
    (h2 : bytesLe b c = true) : bytesLe a c = true := by
  induction a generalizing b c with
  | nil => rfl
  | cons x xs ih =>
    cases b with
    | nil => simp [bytesLe] at h1
    | cons y ys =>
      cases c with
      | nil => simp [bytesLe] at h2
      | cons z zs =>
        simp only [bytesLe] at h1 h2 ⊢
        rcases Nat.lt_trichotomy x y with hxy | hxy | hxy
        · rcases Nat.lt_trichotomy y z with hyz | hyz | hyz
          · simp [show x < z from lt_trans hxy hyz]
          · subst hyz; simp [hxy]
          · simp [show ¬ y < z by omega, hyz] at h2
        · subst hxy
          rcases Nat.lt_trichotomy x z with hxz | hxz | hxz
          · simp [hxz]
          · subst hxz
            simp only [Nat.lt_irrefl, if_false] at h1 h2 ⊢
            exact ih h1 h2
          · simp [show ¬ x < z by omega, hxz] at h2
        · simp [show ¬ x < y by omega, hxy] at h1

theorem keyLe_total (s t : String) : keyLe s t = true ∨ keyLe t s = true :=
  bytesLe_total _ _

theorem keyLe_trans {s t u : String} (h1 : keyLe s t = true)
    (h2 : keyLe t u = true) : keyLe s u = true :=
  bytesLe_trans h1 h2

theorem insertByKey_perm (p : String × FieldValue)
    (es : List (String × FieldValue)) : (insertByKey p es).Perm (p :: es) := by
  induction es with
  | nil => simp [insertByKey]
  | cons q qs ih =>
    by_cases h : keyLe p.1 q.1
    · simp [insertByKey, h]
    · simp only [insertByKey, if_neg h]
      exact (List.Perm.cons q ih).trans (List.Perm.swap p q qs)

theorem sortByKey_perm (es : List (String × FieldValue)) :
    (sortByKey es).Perm es := by
  induction es with
  | nil => simp [sortByKey]
  | cons p ps ih =>
    exact (insertByKey_perm p (sortByKey ps)).trans (List.Perm.cons p ih)

theorem insertByKey_pairwise {p : String × FieldValue}
    {es : List (String × FieldValue)}
    (h : es.Pairwise (fun a b => keyLe a.1 b.1 = true)) :
    (insertByKey p es).Pairwise (fun a b => keyLe a.1 b.1 = true) := by
  induction es with
  | nil => simp [insertByKey]
  | cons q qs ih =>
    rcases h with _ | ⟨hq, hqs⟩
    by_cases hle : keyLe p.1 q.1
    · simp only [insertByKey, if_pos hle]
      refine List.Pairwise.cons ?_ (List.Pairwise.cons hq hqs)
      intro b hb
      rcases List.mem_cons.mp hb with hb2 | hb2
      · subst hb2; exact hle
      · exact keyLe_trans hle (hq b hb2)
    · have hqp : keyLe q.1 p.1 = true := by
        rcases keyLe_total p.1 q.1 with h2 | h2
        · exact absurd h2 hle
        · exact h2
      simp only [insertByKey, if_neg hle]
      refine List.Pairwise.cons ?_ (ih hqs)
      intro b hb
      rcases List.mem_cons.mp ((insertByKey_perm p qs).mem_iff.mp hb) with hb2 | hb2
      · subst hb2; exact hqp
      · exact hq b hb2

theorem sortByKey_pairwise (es : List (String × FieldValue)) :
    (sortByKey es).Pairwise (fun a b => keyLe a.1 b.1 = true) := by
  induction es with
  | nil => simp [sortByKey]
  | cons p ps ih => exact insertByKey_pairwise ih

theorem sortByKey_of_pairwise {es : List (String × FieldValue)}
    (h : es.Pairwise (fun a b => keyLe a.1 b.1 = true)) : sortByKey es = es := by
  induction es with
  | nil => rfl
  | cons p ps ih =>
    rcases h with _ | ⟨hp, hps⟩
    have h1 : sortByKey (p :: ps) = insertByKey p (sortByKey ps) := rfl
    rw [h1, ih hps]
    cases ps with
    | nil => rfl
    | cons q qs => simp [insertByKey, hp q (by simp)]

theorem sortByKey_idem (es : List (String × FieldValue)) :
    sortByKey (sortByKey es) = sortByKey es :=
  sortByKey_of_pairwise (sortByKey_pairwise es)

theorem insertByKey_canon (k : String) (v : FieldValue)
    (es : List (String × FieldValue)) :
    insertByKey (k, canonicalize v) (canonEntries es) =
      canonEntries (insertByKey (k, v) es) := by
  induction es with
  | nil => rfl
  | cons q qs ih =>
    rcases q with ⟨k2, v2⟩
    by_cases h : keyLe k k2
    · simp [canonEntries, insertByKey, h]
    · simp [canonEntries, insertByKey, h, ih]

theorem sortByKey_canon (es : List (String × FieldValue)) :
    sortByKey (canonEntries es) = canonEntries (sortByKey es) := by
  induction es with
  | nil => rfl
  | cons p ps ih =>
    rcases p with ⟨k, v⟩
    have h1 : sortByKey (canonEntries ((k, v) :: ps)) =
        insertByKey (k, canonicalize v) (sortByKey (canonEntries ps)) := rfl
    rw [h1, ih, insertByKey_canon]
    rfl

theorem canonDouble_idem (b : Nat) : canonDouble (canonDouble b) = canonDouble b := by
  simp only [canonDouble]
  by_cases h1 : b / 2 ^ 52 % 2 ^ 11 = 2047 ∧ b % 2 ^ 52 ≠ 0
  · simp only [if_pos h1]
    norm_num
  · simp only [if_neg h1]
    by_cases h2 : b = 2 ^ 63
    · simp only [if_pos h2]
      norm_num
    · simp only [if_neg h2, if_neg h1]

theorem fvSizeEntries_insertByKey (p : String × FieldValue)
    (es : List (String × FieldValue)) :
    fvSizeEntries (insertByKey p es) = 1 + fvSize p.2 + fvSizeEntries es := by
  induction es with
  | nil => rcases p with ⟨k, v⟩; simp [insertByKey, fvSizeEntries]
  | cons q qs ih =>
    rcases p with ⟨k, v⟩
    rcases q with ⟨k2, v2⟩
    by_cases h : keyLe k k2
    · simp [insertByKey, h, fvSizeEntries]
    · simp [insertByKey, h, fvSizeEntries, ih]
      omega

theorem fvSizeEntries_sortByKey (es : List (String × FieldValue)) :
    fvSizeEntries (sortByKey es) = fvSizeEntries es := by
  induction es with
  | nil => rfl
  | cons p ps ih =>
    rcases p with ⟨k, v⟩
    show fvSizeEntries (insertByKey (k, v) (sortByKey ps)) = _
    rw [fvSizeEntries_insertByKey]
    simp [fvSizeEntries, ih]

mutual

theorem canonicalize_eq_of_structEq {v w : FieldValue} (h : StructEq v w) :
    canonicalize v = canonicalize w := by
  cases h with
  | int _ => rfl
  | double b1 b2 hd => simp [canonicalize, hd]
  | bool _ => rfl
  | str _ => rfl
  | bytes _ => rfl
  | null => rfl
  | seq xs ys hl => simp [canonicalize, canonList_eq_of_structEqList hl]
  | map es fs he =>
    simp only [canonicalize, sortByKey_canon]
    rw [canonEntries_eq_of_structEqEntries he]
  | res t es fs he => simp [canonicalize, canonEntries_eq_of_structEqEntries he]
  | typeRef _ => rfl
  | ref _ => rfl
termination_by fvSize v
decreasing_by
  all_goals simp only [fvSize, fvSizeList, fvSizeEntries, fvSizeEntries_sortByKey]
  all_goals omega

theorem canonList_eq_of_structEqList {xs ys : List FieldValue}
    (h : StructEqList xs ys) : canonList xs = canonList ys := by
  cases h with
  | nil => rfl
  | cons h1 hs =>
    simp [canonList, canonicalize_eq_of_structEq h1, canonList_eq_of_structEqList hs]
termination_by fvSizeList xs
decreasing_by
  all_goals simp only [fvSize, fvSizeList, fvSizeEntries, fvSizeEntries_sortByKey]
  all_goals omega

theorem canonEntries_eq_of_structEqEntries {es fs : List (String × FieldValue)}
    (h : StructEqEntries es fs) : canonEntries es = canonEntries fs := by
  cases h with
  | nil => rfl
  | cons h1 hs =>
    simp [canonEntries, canonicalize_eq_of_structEq h1,
      canonEntries_eq_of_structEqEntries hs]
termination_by fvSizeEntries es
decreasing_by
  all_goals simp only [fvSize, fvSizeList, fvSizeEntries, fvSizeEntries_sortByKey]
  all_goals omega

end

mutual

theorem structEq_canon (v : FieldValue) : StructEq v (canonicalize v) := by
  cases v with
  | int i => exact .int i
  | double b => exact .double b (canonDouble b) (canonDouble_idem b).symm
  | bool b => exact .bool b
  | str s => exact .str s
  | bytes bs => exact .bytes bs
  | null => exact .null
  | seq xs => exact .seq xs (canonList xs) (structEqList_canon xs)
  | map es =>
    refine .map es (sortByKey (canonEntries es)) ?_
    rw [sortByKey_idem, sortByKey_canon]
    exact structEqEntries_canon (sortByKey es)
  | res t fs => exact .res t fs (canonEntries fs) (structEqEntries_canon fs)
  | typeRef t => exact .typeRef t
  | ref d => exact .ref d
termination_by fvSize v
decreasing_by
  all_goals simp only [fvSize, fvSizeList, fvSizeEntries, fvSizeEntries_sortByKey]
  all_goals omega

theorem structEqList_canon (xs : List FieldValue) : StructEqList xs (canonList xs) := by
  cases xs with
  | nil => exact .nil
  | cons v vs => exact .cons (structEq_canon v) (structEqList_canon vs)
termination_by fvSizeList xs
decreasing_by
  all_goals simp only [fvSize, fvSizeList, fvSizeEntries, fvSizeEntries_sortByKey]
  all_goals omega

theorem structEqEntries_canon (es : List (String × FieldValue)) :
    StructEqEntries es (canonEntries es) := by
  cases es with
  | nil => exact .nil
  | cons p ps =>
    rcases p with ⟨k, v⟩
    exact .cons (structEq_canon v) (structEqEntries_canon ps)
termination_by fvSizeEntries es
decreasing_by
  all_goals simp only [fvSize, fvSizeList, fvSizeEntries, fvSizeEntries_sortByKey]
  all_goals omega

end

theorem typeRegisteredEntries_perm (reg : Registry)
    {l1 l2 : List (String × FieldValue)} (h : l1.Perm l2) :
    typeRegisteredEntries reg l1 = typeRegisteredEntries reg l2 := by
  induction h with
  | nil => rfl
  | cons p _ ih =>
    rcases p with ⟨k, v⟩
    simp [typeRegisteredEntries, ih]
  | swap p q l =>
    rcases p with ⟨k1, v1⟩
    rcases q with ⟨k2, v2⟩
    simp [typeRegisteredEntries, Bool.and_assoc, Bool.and_comm, Bool.and_left_comm]
  | trans _ _ ih1 ih2 => exact ih1.trans ih2

mutual

theorem typeRegistered_canon (reg : Registry) (v : FieldValue) :
    typeRegistered reg (canonicalize v) = typeRegistered reg v := by
  cases v with
  | seq xs =>
    show typeRegisteredList reg (canonList xs) = typeRegisteredList reg xs
    exact typeRegisteredList_canon reg xs
  | map es =>
    show typeRegisteredEntries reg (sortByKey (canonEntries es)) =
      typeRegisteredEntries reg es
    rw [typeRegisteredEntries_perm reg (sortByKey_perm _)]
    exact typeRegisteredEntries_canon reg es
  | res t fs =>
    show (decide (t ∈ reg) && typeRegisteredEntries reg (canonEntries fs)) = _
    rw [typeRegisteredEntries_canon reg fs]
    rfl
  | _ => rfl
termination_by fvSize v
decreasing_by
  all_goals simp only [fvSize, fvSizeList, fvSizeEntries, fvSizeEntries_sortByKey]
  all_goals omega

theorem typeRegisteredList_canon (reg : Registry) (xs : List FieldValue) :
    typeRegisteredList reg (canonList xs) = typeRegisteredList reg xs := by
  cases xs with
  | nil => rfl
  | cons v vs =>
    show (typeRegistered reg (canonicalize v) && typeRegisteredList reg (canonList vs)) = _
    rw [typeRegistered_canon reg v, typeRegisteredList_canon reg vs]
    rfl
termination_by fvSizeList xs
decreasing_by
  all_goals simp only [fvSize, fvSizeList, fvSizeEntries, fvSizeEntries_sortByKey]
  all_goals omega

theorem typeRegisteredEntries_canon (reg : Registry)
    (es : List (String × FieldValue)) :
    typeRegisteredEntries reg (canonEntries es) = typeRegisteredEntries reg es := by
  cases es with
  | nil => rfl
  | cons p ps =>
    rcases p with ⟨k, v⟩
    show (typeRegistered reg (canonicalize v) &&
      typeRegisteredEntries reg (canonEntries ps)) = _
    rw [typeRegistered_canon reg v, typeRegisteredEntries_canon reg ps]
    rfl
termination_by fvSizeEntries es
decreasing_by
  all_goals simp only [fvSize, fvSizeList, fvSizeEntries, fvSizeEntries_sortByKey]
  all_goals omega

end

/-- C1: for every pair of resources that are structurally equal — same
type-id and, recursively under canonicalization, the same field values —
the digests are equal; in particular, committing the same resource value
twice in the same store returns equal Refs. -/
theorem digest_deterministic :
    (∀ v w : FieldValue, StructEq v w → digest v = digest w) ∧
    ∀ (s : Store) (v : FieldValue), (commit ((commit s v).1) v).2 = (commit s v).2 := by
  constructor
  · intro v w h
    unfold digest
    rw [canonicalize_eq_of_structEq h]
  · intro s v
    rfl

/-- Witness for C1: two maps listing the same entries in different key order
are structurally equal and get equal digests. -/
theorem digest_deterministic_witness :
    digest (FieldValue.map [(("b"), .int 2), (("a"), .int 1)]) =
      digest (FieldValue.map [(("a"), .int 1), (("b"), .int 2)]) :=
  digest_deterministic.1 _ _
    (.map _ _ (by
      show StructEqEntries [(("a"), FieldValue.int 1), (("b"), FieldValue.int 2)]
        [(("a"), FieldValue.int 1), (("b"), FieldValue.int 2)]
      exact .cons (.int 1) (.cons (.int 2) .nil)))

mutual

theorem refsOf_length (v : FieldValue) :
    ∀ d ∈ refsOf v, d.length < (serialize v).length := by
  cases v with
  | seq xs =>
    intro d hd
    have h := refsList_length xs d hd
    show d.length < (7 :: be64 xs.length ++ serializeList xs).length
    simp [be64]
    omega
  | map es =>
    intro d hd
    have h := refsEntries_length es d hd
    show d.length < (8 :: be64 es.length ++ serializeEntries es).length
    simp [be64]
    omega
  | res t fs =>
    intro d hd
    have h := refsEntries_length fs d hd
    show d.length < (9 :: lenStr t ++ be64 fs.length ++ serializeEntries fs).length
    simp [be64, lenStr]
    omega
  | ref d0 =>
    intro d hd
    have hdd : d = d0 := List.mem_singleton.mp hd
    subst hdd
    show d.length < (11 :: be64 d.length ++ d).length
    simp [be64]
    omega
  | _ =>
    intro d hd
    simp [refsOf] at hd

theorem refsList_length (xs : List FieldValue) :
    ∀ d ∈ refsList xs, d.length < (serializeList xs).length + 1 := by
  cases xs with
  | nil =>
    intro d hd
    cases hd
  | cons v vs =>
    intro d hd
    rcases List.mem_append.mp hd with h | h
    · have := refsOf_length v d h
      show d.length < (serialize v ++ serializeList vs).length + 1
      simp only [List.length_append]
      omega
    · have := refsList_length vs d h
      show d.length < (serialize v ++ serializeList vs).length + 1
      simp only [List.length_append]
      omega

theorem refsEntries_length (es : List (String × FieldValue)) :
    ∀ d ∈ refsEntries es, d.length < (serializeEntries es).length + 1 := by
  cases es with
  | nil =>
    intro d hd
    cases hd
  | cons p ps =>
    rcases p with ⟨k, v⟩
    intro d hd
    rcases List.mem_append.mp hd with h | h
    · have := refsOf_length v d h
      show d.length < (lenStr k ++ serialize v ++ serializeEntries ps).length + 1
      simp only [List.length_append]
      omega
    · have := refsEntries_length ps d h
      show d.length < (lenStr k ++ serialize v ++ serializeEntries ps).length + 1
      simp only [List.length_append]
      omega

end

theorem StoreWF_nil : StoreWF [] := by
  intro d v h
  cases h

theorem StoreWF_commit {s : Store} (v : FieldValue) (h : StoreWF s) :
    StoreWF (commit s v).1 := by
  show StoreWF (if (storeGet s (serialize (canonicalize v))).isSome then s
    else (serialize (canonicalize v), canonicalize v) :: s)
  split
  · exact h
  · intro d w hw
    simp only [storeGet] at hw
    split at hw
    · rename_i heq
      cases hw
      exact heq
    · exact h d w hw

theorem buildStore_wf (vs : List FieldValue) : StoreWF (buildStore vs) := by
  suffices h : ∀ s, StoreWF s → StoreWF (vs.foldl (fun s v => (commit s v).1) s) from
    h [] StoreWF_nil
  induction vs with
  | nil => intro s hs; exact hs
  | cons v vs ih =>
    intro s hs
    exact ih _ (StoreWF_commit v hs)

theorem refStep_length {s : Store} (hwf : StoreWF s) {d1 d2 : List Nat}
    (h : RefStep s d1 d2) : d2.length < d1.length := by
  rcases h with ⟨v, hget, hmem⟩
  have h1 := refsOf_length v d2 hmem
  rw [hwf d1 v hget] at h1
  exact h1

theorem transGen_refStep_length {s : Store} (hwf : StoreWF s) {d1 d2 : List Nat}
    (h : Relation.TransGen (RefStep s) d1 d2) : d2.length < d1.length := by
  induction h with
  | single h1 => exact refStep_length hwf h1
  | tail _ h1 ih => exact lt_trans (refStep_length hwf h1) ih

/-- C2: for every sequence of commits starting from the empty store, the
graph of resources reachable through Refs is acyclic — no sequence of commits
can produce a Ref cycle, because a Ref's digest must be computed before the
Ref can be embedded in another resource. -/
theorem commit_acyclic (vs : List FieldValue) : hasRefCycle (buildStore vs) ↔ False := by
  refine ⟨fun hcyc => ?_, False.elim⟩
  rcases hcyc with ⟨d, htg⟩
  exact absurd (transGen_refStep_length (buildStore_wf vs) htg) (lt_irrefl _)

theorem storeGet_commit_self {s : Store} {v : FieldValue}
    (hfresh : storeGet s (digest v) = none ∨
      storeGet s (digest v) = some (canonicalize v)) :
    storeGet (commit s v).1 (digest v) = some (canonicalize v) := by
  show storeGet (if (storeGet s (serialize (canonicalize v))).isSome then s
    else (serialize (canonicalize v), canonicalize v) :: s) (digest v) =
    some (canonicalize v)
  rcases hfresh with h | h
  · rw [if_neg (by simp [digest] at h; simp [h])]
    simp [storeGet, digest]
  · rw [if_pos (by simp [digest] at h; simp [h])]
    exact h

theorem storeGet_commit_mono {s : Store} (v : FieldValue) {d : List Nat}
    {p : FieldValue} (h : storeGet s d = some p) :
    storeGet (commit s v).1 d = some p := by
  show storeGet (if (storeGet s (serialize (canonicalize v))).isSome then s
    else (serialize (canonicalize v), canonicalize v) :: s) d = some p
  split
  · exact h
  · rename_i hn
    simp only [storeGet]
    split
    · rename_i heq
      rw [heq] at hn
      rw [h] at hn
      simp at hn
    · exact h

/-- C3: for every registered resource type and valid instance, checking out
the Ref returned by committing the instance in an active store yields a value
structurally equal to the instance.  The freshness hypothesis excludes the
digest-collision event that the spec's invariant 2 rules out
cryptographically: whatever the store already holds at this digest is the
canonical form of the committed value. -/
theorem commit_checkout_roundtrip (reg : Registry) (s : Store) (v : FieldValue)
    (hfresh : storeGet s (digest v) = none ∨
      storeGet s (digest v) = some (canonicalize v))
    (hreg : typeRegistered reg v = true) :
    ∃ y, checkout reg (commit s v).1 (commit s v).2 = .ok y ∧ StructEq v y := by
  refine ⟨canonicalize v, ?_, structEq_canon v⟩
  have h1 : storeGet (commit s v).1 (digest v) = some (canonicalize v) :=
    storeGet_commit_self hfresh
  have h2 : (commit s v).2.digest = digest v := rfl
  simp [checkout, h2, h1, typeRegistered_canon, hreg]

/-- Witness for C3: scenario S1 — committing MyResource("hello", 42) in a
fresh in-memory store and checking the returned Ref out yields a structurally
equal value. -/
theorem commit_checkout_roundtrip_witness :
    ∃ y, checkout [("MyResource")]
        (commit ([] : Store)
          (FieldValue.res ("MyResource")
            [(("my_field"), .str ("hello")), (("my_other_field"), .int 42)])).1
        (commit ([] : Store)
          (FieldValue.res ("MyResource")
            [(("my_field"), .str ("hello")), (("my_other_field"), .int 42)])).2 =
      .ok y ∧
      StructEq
        (FieldValue.res ("MyResource")
          [(("my_field"), .str ("hello")), (("my_other_field"), .int 42)]) y :=
  commit_checkout_roundtrip _ _ _ (.inl rfl) (by rfl)

/-- C7: after `modify`, a Ref copy taken before the modify still resolves to
the pre-modify resource — modify rebinds only the ref's digest to the newly
committed value, and the old digest remains retrievable from the store
unchanged. -/
theorem modify_isolation (reg : Registry) (s : Store) (r : Ref)
    (f : FieldValue → FieldValue) (p : FieldValue)
    (hp : storeGet s r.digest = some p) (hreg : typeRegistered reg p = true) :
    ∃ s2 r2, Ref.modify reg s r f = .ok (s2, r2) ∧
      storeGet s2 (deepcopy r).digest = some p ∧ r2.digest = digest (f p) := by
  refine ⟨(commit s (f p)).1, (commit s (f p)).2, ?_, ?_, rfl⟩
  · simp [Ref.modify, checkout, hp, hreg]
  · exact storeGet_commit_mono (f p) hp

/-- Witness for C7: the notebook scenario — commit MyResource("hello", 42),
modify it to MyResource("hello", 69); the copy of the old Ref still resolves
to the original resource. -/
theorem modify_isolation_witness :
    ∃ s2 r2,
      Ref.modify [("MyResource")]
        (commit ([] : Store)
          (FieldValue.res ("MyResource")
            [(("my_field"), .str ("hello")), (("my_other_field"), .int 42)])).1
        (commit ([] : Store)
          (FieldValue.res ("MyResource")
            [(("my_field"), .str ("hello")), (("my_other_field"), .int 42)])).2
        (fun _ => FieldValue.res ("MyResource")
          [(("my_field"), .str ("hello")), (("my_other_field"), .int 69)]) =
        .ok (s2, r2) ∧
      storeGet s2
          (deepcopy (commit ([] : Store)
            (FieldValue.res ("MyResource")
              [(("my_field"), .str ("hello")), (("my_other_field"), .int 42)])).2).digest =
        some (canonicalize
          (FieldValue.res ("MyResource")
            [(("my_field"), .str ("hello")), (("my_other_field"), .int 42)])) ∧
      r2.digest = digest (FieldValue.res ("MyResource")
        [(("my_field"), .str ("hello")), (("my_other_field"), .int 69)]) :=
  modify_isolation _ _ _ _ _ (by rfl) (by rfl)

/-- C4: during strict replay, when the recorded child's callable or input is
not digest-equal to the call the body makes, the engine raises a ReplayError
naming the expected (recorded) and the observed (live) call; no replayed
invocation is produced, leaving the invocation being replayed in its partial
state. -/
theorem replay_divergence (env : Env) (ov : FieldValue → Option FieldValue)
    (d : Nat) (inv : Invocation) (c : String) (i : FieldValue)
    (k : FieldValue → Body) (t : Invocation) (ts : List Invocation)
    (hout : inv.output = none)
    (hbody : env inv.invokable inv.inputVal = .call c i k)
    (hch : inv.children = t :: ts)
    (hne : ¬ (t.invokable = c ∧ digest t.inputVal = digest i)) :
    runNode env ov (d + 1) inv =
      .error (.replayErr ⟨t.invokable, digest t.inputVal⟩ ⟨c, digest i⟩) := by
  have h1 : inv.output.isSome = false := by simp [hout]
  simp only [runNode, h1, Bool.false_eq_true, if_false, hbody, hch]
  simp [runLoop, hne]

/-- Witness for C4: scenario S5 — FormatCurrentTime recorded at one clock
reading, rewound by zero calls and replayed at a later clock reading, diverges
at the nested format_timestamp call and the error names both input
digests. -/
theorem replay_divergence_witness :
    runNode (s5env s5now2) noOv 3 s5rewound =
      .error (.replayErr ⟨ftsName, digest (.int s5now1)⟩
        ⟨ftsName, digest (.int s5now2)⟩) :=
  replay_divergence (s5env s5now2) noOv 2 s5rewound ftsName (.int s5now2)
    (fun o => .ret o)
    (.mk ftsName (.int s5now1) (some (.str ("formatted"))) none false []) []
    (by rfl) (by rfl) (by rfl) (by decide)

/-- C9: a child invocation started as a background task and never awaited
stays unfinished; when the parent's body returns and the builder attempts to
finalize, the engine raises IncompleteSubinvocation identifying the
unfinished subinvocation (its index, callable and input). -/
theorem incomplete_subinvocation (env : Env) (ov : FieldValue → Option FieldValue)
    (d : Nat) (nm : String) (inp v : FieldValue) (c0 : String) (i0 : FieldValue)
    (calls : List (String × FieldValue))
    (hbody : env nm inp = .spawn ((c0, i0) :: calls) (.ret v)) :
    runNode env ov (d + 1) (blankInv nm inp) = .error (.incompleteSub 0 c0 i0) := by
  have h1 : (blankInv nm inp).output.isSome = false := rfl
  simp only [runNode, h1, Bool.false_eq_true, if_false]
  show runLoop _ _ (env nm inp) nm inp [] [] = _
  rw [hbody]
  simp [runLoop, spawnConsume, firstIncomplete, Invocation.complete, blankInv,
    Invocation.output, Invocation.raised, Invocation.invokable, Invocation.inputVal]

/-- Witness for C9: the notebook's WaitForFirstResult spawns three die rolls
as background tasks and returns without awaiting them; finalization fails
identifying subinvocation 0. -/
theorem incomplete_subinvocation_witness :
    runNode c9env noOv 3 (blankInv ("WaitForFirstResult") (.int 3)) =
      .error (.incompleteSub 0 adrName (.int 0)) :=
  incomplete_subinvocation c9env noOv 2 ("WaitForFirstResult") (.int 3)
    (.int 4) adrName (.int 0) [(adrName, .int 1), (adrName, .int 2)] (by rfl)

/-- C6: invoking the callable that requests an input for each i in 0..9
raises InputRequest with the ten requests recorded as children in the
journal, and replaying with the override that maps each recorded for-value i
to (i mod 7) + 1 produces a completed invocation whose output is the sum of
the ten injected values, 34. -/
theorem input_request_resolution :
    c6invoked.map Invocation.raised = .ok (some (inputRequest (.int 0))) ∧
    c6invoked.map (fun j => j.children.map Invocation.raised) =
      .ok ((List.range 10).map (fun i => some (inputRequest (.int (i : Int))))) ∧
    c6replayed.map Invocation.output = .ok (some (.int 34)) :=
  ⟨rfl, rfl, rfl⟩

theorem invListOK_append {l1 l2 : List Invocation} :
    invListOK (l1 ++ l2) = (invListOK l1 && invListOK l2) := by
  induction l1 with
  | nil => simp [invListOK]
  | cons c cs ih => simp [invListOK, ih, Bool.and_assoc]

theorem invOK_blank (c : String) (i : FieldValue) : invOK (blankInv c i) = true := rfl

theorem runChildWith_ok {ov : FieldValue → Option FieldValue}
    {rerun : Invocation → Except EngErr Invocation}
    (hre : ∀ t r, invOK t = true → rerun t = .ok r → invOK r = true)
    {t r : Invocation} (ht : invOK t = true)
    (h : runChildWith ov rerun t = .ok r) : invOK r = true := by
  unfold runChildWith at h
  split at h
  · cases h
    exact ht
  · split at h
    · split at h
      · cases h
        rcases t with ⟨c, i, o, ra, rh, cs⟩
        simp [invOK] at ht ⊢
        exact ht.2
      · cases h
        exact ht
    · exact hre t r ht h

theorem runGather_ok {rc : Invocation → Except EngErr Invocation}
    {ex : String → FieldValue → Except EngErr Invocation}
    (hrc : ∀ t r, invOK t = true → rc t = .ok r → invOK r = true)
    (hex : ∀ c i r, ex c i = .ok r → invOK r = true) :
    ∀ (calls : List (String × FieldValue)) (ts : List Invocation) p,
      invListOK ts = true → runGather rc ex calls ts = .ok p →
      invListOK p.1 = true ∧ invListOK p.2.2 = true := by
  intro calls
  induction calls with
  | nil =>
    intro ts p hts h
    cases h
    exact ⟨rfl, hts⟩
  | cons q qs ih =>
    rcases q with ⟨c, i⟩
    intro ts p hts h
    cases ts with
    | nil =>
      simp only [runGather] at h
      rcases hx : ex c i with err | child
      · rw [hx] at h; cases h
      · rw [hx] at h
        dsimp only at h
        rcases hrec : runGather rc ex qs [] with err2 | p2
        · rw [hrec] at h; cases h
        · rw [hrec] at h
          dsimp only [Except.map] at h
          cases h
          have hg := ih [] p2 rfl hrec
          refine ⟨?_, hg.2⟩
          simp [invListOK, hex c i child hx, hg.1]
    | cons t ts2 =>
      simp only [runGather] at h
      split at h
      · rcases hx : rc t with err | child
        · rw [hx] at h; cases h
        · rw [hx] at h
          dsimp only at h
          rcases hrec : runGather rc ex qs ts2 with err2 | p2
          · rw [hrec] at h; cases h
          · rw [hrec] at h
            dsimp only [Except.map] at h
            cases h
            simp only [invListOK, Bool.and_eq_true] at hts
            have hg := ih ts2 p2 hts.2 hrec
            refine ⟨?_, hg.2⟩
            simp [invListOK, hrc t child hts.1 hx, hg.1]
      · cases h

theorem spawnConsume_ok :
    ∀ (calls : List (String × FieldValue)) (ts : List Invocation),
      invListOK ts = true →
      invListOK (spawnConsume calls ts).1 = true ∧
      invListOK (spawnConsume calls ts).2 = true := by
  intro calls
  induction calls with
  | nil => intro ts hts; exact ⟨rfl, hts⟩
  | cons q qs ih =>
    rcases q with ⟨c, i⟩
    intro ts hts
    cases ts with
    | nil =>
      simp only [spawnConsume]
      have := ih [] rfl
      exact ⟨by simp [invListOK, invOK_blank, this.1], rfl⟩
    | cons t ts2 =>
      simp only [spawnConsume]
      simp only [invListOK, Bool.and_eq_true] at hts
      split
      · have := ih ts2 hts.2
        exact ⟨by simp [invListOK, invOK_blank, this.1], this.2⟩
      · constructor
        · show invListOK (((c, i) :: qs).map (fun q => blankInv q.1 q.2)) = true
          clear ih
          induction qs with
          | nil => rfl
          | cons q2 qs2 ih2 => simpa [invListOK, invOK_blank] using ih2
        · simp [invListOK, hts.1, hts.2]

theorem runLoop_ok {rc : Invocation → Except EngErr Invocation}
    {ex : String → FieldValue → Except EngErr Invocation}
    (hrc : ∀ t r, invOK t = true → rc t = .ok r → invOK r = true)
    (hex : ∀ c i r, ex c i = .ok r → invOK r = true) :
    ∀ (body : Body) (nm : String) (inp : FieldValue) (acc ts : List Invocation)
      (res : Invocation), invListOK acc = true → invListOK ts = true →
      runLoop rc ex body nm inp acc ts = .ok res → invOK res = true := by
  intro body
  induction body with
  | ret v =>
    intro nm inp acc ts res hacc hts h
    simp only [runLoop] at h
    split at h
    · cases h
    · cases h
      simp [invOK, hacc]
  | raise e =>
    intro nm inp acc ts res hacc hts h
    simp only [runLoop] at h
    cases h
    simp [invOK, hacc]
  | call c i k ihk =>
    intro nm inp acc ts res hacc hts h
    cases ts with
    | nil =>
      simp only [runLoop] at h
      rcases hx : ex c i with err | child
      · rw [hx] at h; cases h
      · rw [hx] at h
        dsimp only at h
        have hchild := hex c i child hx
        rcases ho : child.output with _ | v
        · rw [ho] at h
          dsimp only at h
          cases h
          simp [invOK, invListOK_append, hacc, invListOK, hchild]
        · rw [ho] at h
          dsimp only at h
          exact ihk v nm inp (acc ++ [child]) [] res
            (by simp [invListOK_append, hacc, invListOK, hchild]) rfl h
    | cons t ts2 =>
      simp only [runLoop] at h
      simp only [invListOK, Bool.and_eq_true] at hts
      split at h
      · rcases hx : rc t with err | child
        · rw [hx] at h; cases h
        · rw [hx] at h
          dsimp only at h
          have hchild := hrc t child hts.1 hx
          rcases ho : child.output with _ | v
          · rw [ho] at h
            dsimp only at h
            cases h
            simp [invOK, invListOK_append, hacc, invListOK, hchild]
          · rw [ho] at h
            dsimp only at h
            exact ihk v nm inp (acc ++ [child]) ts2 res
              (by simp [invListOK_append, hacc, invListOK, hchild]) hts.2 h
      · cases h
  | gather calls k ihk =>
    intro nm inp acc ts res hacc hts h
    simp only [runLoop] at h
    rcases hg : runGather rc ex calls ts with err | p
    · rw [hg] at h; cases h
    · rw [hg] at h
      dsimp only at h
      have hp := runGather_ok hrc hex calls ts p hts hg
      exact ihk p.2.1 nm inp (acc ++ p.1) p.2.2 res
        (by simp [invListOK_append, hacc, hp.1]) hp.2 h
  | spawn calls k ihk =>
    intro nm inp acc ts res hacc hts h
    simp only [runLoop] at h
    have hp := spawnConsume_ok calls ts hts
    exact ihk nm inp (acc ++ (spawnConsume calls ts).1) (spawnConsume calls ts).2 res
      (by simp [invListOK_append, hacc, hp.1]) hp.2 h

theorem runNode_ok (env : Env) (ov : FieldValue → Option FieldValue) :
    ∀ (d : Nat) (inv res : Invocation), invOK inv = true →
      runNode env ov d inv = .ok res → invOK res = true := by
  intro d
  induction d with
  | zero =>
    intro inv res hinv h
    simp only [runNode] at h
    split at h
    · cases h; exact hinv
    · cases h; exact invOK_blank _ _
  | succ d ih =>
    intro inv res hinv h
    simp only [runNode] at h
    split at h
    · cases h; exact hinv
    · have hchildren : invListOK inv.children = true := by
        rcases inv with ⟨c, i, o, r, rh, cs⟩
        simp [invOK, Bool.and_eq_true] at hinv
        simpa [Invocation.children, invListOK] using hinv.2
      exact runLoop_ok
        (fun t r hr ht => runChildWith_ok (fun t2 r2 h2 hh2 => ih t2 r2 h2 hh2) hr ht)
        (fun c i r hr => ih (blankInv c i) r (invOK_blank c i) hr)
        (env inv.invokable inv.inputVal) inv.invokable inv.inputVal [] inv.children
        res rfl hchildren h

mutual

theorem removeLeaves_ok : ∀ (inv : Invocation) (n : Nat), invOK inv = true →
    ∀ r, (removeLeaves inv n).1 = some r → invOK r = true
  | inv, 0 => by
    intro hinv r h
    simp only [removeLeaves] at h
    cases h
    exact hinv
  | .mk c i o ra rh [], n + 1 => by
    intro hinv r h
    simp only [removeLeaves] at h
    split at h
    · cases h
    · cases h
      exact hinv
  | .mk c i o ra rh (ch :: chs), n + 1 => by
    intro hinv r h
    simp only [removeLeaves] at h
    have hch : invListOK (ch :: chs) = true := by
      simp only [invOK] at hinv
      simp only [Bool.and_eq_true] at hinv
      exact hinv.2
    have hlist := removeLeavesList_ok (ch :: chs) (n + 1) hch
    rcases hp : (removeLeavesList (ch :: chs) (n + 1)).1 with _ | ⟨c2, cs2⟩
    · rw [hp] at h
      dsimp only at h
      cases h
    · rw [hp] at h
      dsimp only at h
      cases h
      rw [hp] at hlist
      simp [invOK, hlist]

theorem removeLeavesList_ok : ∀ (cs : List Invocation) (n : Nat),
    invListOK cs = true → invListOK (removeLeavesList cs n).1 = true
  | [], n => by intro h; exact h
  | c :: rest, n => by
    intro h
    simp only [invListOK, Bool.and_eq_true] at h
    simp only [removeLeavesList]
    have hrest := removeLeavesList_ok rest n h.2
    rcases hp : (removeLeavesList rest n).2 with _ | m
    · simp [hp, invListOK, h.1, hrest]
    · rcases hr : removeLeaves c (m + 1) with ⟨ropt, n2⟩
      rcases ropt with _ | c2
      · simp [hp, hr, hrest]
      · have := removeLeaves_ok c (m + 1) h.1 c2 (by rw [hr])
        simp [hp, hr, invListOK, this, hrest]

end

/-- C8: for every response of an invocation the framework produces — by
running or replaying a node whose recorded tree satisfies the invariant, or
by rewinding — at most one of the fields output and raised is non-null in
every node; when the invocation is complete exactly one is non-null, and both
are null only in the incomplete state the builder uses (for example after a
rewind, whose root response is cleared). -/
theorem response_exclusive :
    (∀ (env : Env) (ov : FieldValue → Option FieldValue) (d : Nat)
      (inv res : Invocation), invOK inv = true → runNode env ov d inv = .ok res →
      invOK res = true) ∧
    ∀ (inv : Invocation) (n : Nat), invOK inv = true →
      invOK (inv.rewind n) = true ∧ (inv.rewind n).output = none ∧
        (inv.rewind n).raised = none := by
  constructor
  · exact fun env ov d inv res h1 h2 => runNode_ok env ov d inv res h1 h2
  · intro inv n hinv
    refine ⟨?_, rfl, rfl⟩
    have hchildren : invListOK inv.children = true := by
      rcases inv with ⟨c, i, o, r, rh, cs⟩
      simp [invOK, Bool.and_eq_true] at hinv
      simpa [Invocation.children, invListOK] using hinv.2
    show invOK (clearNode inv (removeLeavesList inv.children n).1) = true
    simp [clearNode, invOK, removeLeavesList_ok inv.children n hchildren]

/-- Witness for C8: a trivial registered callable run at depth 1 satisfies
the response invariant, as does its rewind. -/
theorem response_exclusive_witness :
    invOK (.mk ("f") .null (some .null) none false []) = true ∧
    invOK ((Invocation.mk ("f") .null (some .null) none false []).rewind 0) = true ∧
    ((Invocation.mk ("f") .null (some .null) none false []).rewind 0).output = none ∧
    ((Invocation.mk ("f") .null (some .null) none false []).rewind 0).raised = none :=
  ⟨response_exclusive.1 (fun _ _ => .ret .null) noOv 1
      (blankInv ("f") .null) (.mk ("f") .null (some .null) none false []) rfl rfl,
    (response_exclusive.2 (.mk ("f") .null (some .null) none false []) 0 rfl).1,
    (response_exclusive.2 (.mk ("f") .null (some .null) none false []) 0 rfl).2.1,
    (response_exclusive.2 (.mk ("f") .null (some .null) none false []) 0 rfl).2.2⟩

theorem field_values_mem {wreg : WrapperRegistry}
    {fields : List (String × RawValue)} {vs : List FieldValue}
    {name : String} {rv : RawValue}
    (h : field_values wreg fields = some vs) (hmem : (name, rv) ∈ fields) :
    ∃ y, wrap wreg rv = some y ∧ y ∈ vs := by
  induction fields generalizing vs with
  | nil => cases hmem
  | cons q qs ih =>
    rcases q with ⟨n2, rv2⟩
    simp only [field_values] at h
    rcases hw : wrap wreg rv2 with _ | y2
    · rw [hw] at h; cases h
    · rw [hw] at h
      rcases hr : field_values wreg qs with _ | vs2
      · rw [hr] at h; cases h
      · rw [hr] at h
        cases h
        rcases List.mem_cons.mp hmem with heq | hmem2
        · cases heq
          exact ⟨y2, hw, by simp⟩
        · rcases ih hr hmem2 with ⟨y, hy1, hy2⟩
          exact ⟨y, hy1, by simp [hy2]⟩

/-- C10: for a field whose declared type is a foreign type with a registered
wrapper, the enact-facing field enumeration returns the wrapped resource form
of the field's value, never the foreign value itself — wrapping is applied
automatically before values cross the model boundary; concretely, the
notebook's Nested(MyCounter()) enumerates as [MyCounterWrapper(count=0)]. -/
theorem wrapper_field_values :
    (∀ (wreg : WrapperRegistry) (ft : String) (payload : FieldValue)
      (w : TypeWrapper), lookupWrapper wreg ft = some w →
      wrap wreg (.foreign ft payload) =
        some (.res w.type_id (w.wrap_fields payload))) ∧
    (∀ (wreg : WrapperRegistry) (fields : List (String × RawValue))
      (vs : List FieldValue) (name ft : String) (payload : FieldValue)
      (w : TypeWrapper), field_values wreg fields = some vs →
      (name, RawValue.foreign ft payload) ∈ fields →
      lookupWrapper wreg ft = some w →
      FieldValue.res w.type_id (w.wrap_fields payload) ∈ vs) ∧
    field_values [myCounterWrapper] nestedFields =
      some [.res myCounterWrapperId [(("count"), .int 0)]] := by
  refine ⟨?_, ?_, rfl⟩
  · intro wreg ft payload w hw
    simp [wrap, hw]
  · intro wreg fields vs name ft payload w hfv hmem hw
    rcases field_values_mem hfv hmem with ⟨y, hy1, hy2⟩
    have : y = FieldValue.res w.type_id (w.wrap_fields payload) := by
      simp [wrap, hw] at hy1
      exact hy1.symm
    rw [← this]
    exact hy2

/-- Witness for C10: the counter wrapper applied to the notebook's foreign
counter value. -/
theorem wrapper_field_values_witness :
    wrap [myCounterWrapper] (.foreign myCounterType (.int 0)) =
      some (.res myCounterWrapperId [(("count"), .int 0)]) ∧
    FieldValue.res myCounterWrapperId [(("count"), .int 0)] ∈
      [FieldValue.res myCounterWrapperId [(("count"), .int 0)]] :=
  ⟨wrapper_field_values.1 [myCounterWrapper] myCounterType (.int 0)
      myCounterWrapper rfl,
    wrapper_field_values.2.1 [myCounterWrapper] nestedFields
      [.res myCounterWrapperId [(("count"), .int 0)]] ("counter") myCounterType
      (.int 0) myCounterWrapper rfl (by simp [nestedFields]) rfl⟩

theorem allComplete_parts {inv : Invocation} (h : allComplete inv = true) :
    inv.complete = true ∧ allCompleteList inv.children = true := by
  rcases inv with ⟨c, i, o, r, rh, cs⟩
  simp only [allComplete, Bool.and_eq_true] at h
  exact ⟨by simp [Invocation.complete, Invocation.output, Invocation.raised, h.1], h.2⟩

theorem allCompleteList_parts {c : Invocation} {cs : List Invocation}
    (h : allCompleteList (c :: cs) = true) :
    allComplete c = true ∧ allCompleteList cs = true := by
  simp only [allCompleteList, Bool.and_eq_true] at h
  exact h

theorem rewTail_refl : ∀ cs : List Invocation, RewTail cs cs
  | [] => .nil []
  | c :: cs => .cons c (rewTail_refl cs)

theorem rewTail_nil_inv {ts : List Invocation} (h : RewTail [] ts) : ts = [] := by
  cases h
  rfl

theorem runLoop_shape {rc : Invocation → Except EngErr Invocation}
    {ex : String → FieldValue → Except EngErr Invocation} :
    ∀ (body : Body) (nm : String) (inp : FieldValue) (acc ts : List Invocation)
      (res : Invocation), runLoop rc ex body nm inp acc ts = .ok res →
      res.invokable = nm ∧ res.inputVal = inp ∧ ∃ suf, res.children = acc ++ suf := by
  intro body
  induction body with
  | ret v =>
    intro nm inp acc ts res h
    simp only [runLoop] at h
    split at h
    · cases h
    · cases h
      exact ⟨rfl, rfl, [], by simp [Invocation.children]⟩
  | raise e =>
    intro nm inp acc ts res h
    simp only [runLoop] at h
    cases h
    exact ⟨rfl, rfl, [], by simp [Invocation.children]⟩
  | call c i k ihk =>
    intro nm inp acc ts res h
    cases ts with
    | nil =>
      simp only [runLoop] at h
      rcases hx : ex c i with err | child
      · rw [hx] at h; cases h
      · rw [hx] at h
        dsimp only at h
        rcases ho : child.output with _ | v
        · rw [ho] at h
          dsimp only at h
          cases h
          exact ⟨rfl, rfl, [child], rfl⟩
        · rw [ho] at h
          dsimp only at h
          rcases ihk v nm inp (acc ++ [child]) [] res h with ⟨h1, h2, suf, h3⟩
          exact ⟨h1, h2, child :: suf, by simpa using h3⟩
    | cons t ts2 =>
      simp only [runLoop] at h
      split at h
      · rcases hx : rc t with err | child
        · rw [hx] at h; cases h
        · rw [hx] at h
          dsimp only at h
          rcases ho : child.output with _ | v
          · rw [ho] at h
            dsimp only at h
            cases h
            exact ⟨rfl, rfl, [child], rfl⟩
          · rw [ho] at h
            dsimp only at h
            rcases ihk v nm inp (acc ++ [child]) ts2 res h with ⟨h1, h2, suf, h3⟩
            exact ⟨h1, h2, child :: suf, by simpa using h3⟩
      · cases h
  | gather calls k ihk =>
    intro nm inp acc ts res h
    simp only [runLoop] at h
    rcases hg : runGather rc ex calls ts with err | p
    · rw [hg] at h; cases h
    · rw [hg] at h
      dsimp only at h
      rcases ihk p.2.1 nm inp (acc ++ p.1) p.2.2 res h with ⟨h1, h2, suf, h3⟩
      exact ⟨h1, h2, p.1 ++ suf, by simpa using h3⟩
  | spawn calls k ihk =>
    intro nm inp acc ts res h
    simp only [runLoop] at h
    rcases ihk nm inp (acc ++ (spawnConsume calls ts).1) (spawnConsume calls ts).2
      res h with ⟨h1, h2, suf, h3⟩
    exact ⟨h1, h2, (spawnConsume calls ts).1 ++ suf, by simpa using h3⟩

theorem runNode_fields (env : Env) (ov : FieldValue → Option FieldValue)
    (d : Nat) (inv res : Invocation) (h : runNode env ov d inv = .ok res) :
    res.invokable = inv.invokable ∧ res.inputVal = inv.inputVal := by
  cases d with
  | zero =>
    simp only [runNode] at h
    split at h
    · cases h; exact ⟨rfl, rfl⟩
    · cases h; exact ⟨rfl, rfl⟩
  | succ d =>
    simp only [runNode] at h
    split at h
    · cases h; exact ⟨rfl, rfl⟩
    · rcases runLoop_shape _ _ _ _ _ _ h with ⟨h1, h2, _⟩
      exact ⟨h1, h2⟩

theorem runGather_nil {rc : Invocation → Except EngErr Invocation}
    {ex : String → FieldValue → Except EngErr Invocation} :
    ∀ (calls : List (String × FieldValue)) p,
      runGather rc ex calls [] = .ok p → p.2.2 = [] := by
  intro calls
  induction calls with
  | nil =>
    intro p h
    cases h
    rfl
  | cons q qs ih =>
    rcases q with ⟨c, i⟩
    intro p h
    simp only [runGather] at h
    rcases hx : ex c i with err | child
    · rw [hx] at h; cases h
    · rw [hx] at h
      dsimp only at h
      rcases hr : runGather rc ex qs [] with err | p2
      · rw [hr] at h; cases h
      · rw [hr] at h
        dsimp only [Except.map] at h
        cases h
        exact ih p2 hr

mutual

theorem leafCalls_pos : ∀ inv : Invocation, allComplete inv = true →
    1 ≤ leafCalls inv
  | .mk c i o r rh [], h => by
    simp only [allComplete, Bool.and_eq_true] at h
    simp [leafCalls, h.1]
  | .mk c i o r rh (ch :: chs), h => by
    simp only [allComplete, Bool.and_eq_true] at h
    have h1 := allCompleteList_parts h.2
    have := leafCalls_pos ch h1.1
    simp only [leafCalls, leafCallsList]
    omega

end

theorem leafCallsList_pos {ch : Invocation} {chs : List Invocation}
    (h : allCompleteList (ch :: chs) = true) : 1 ≤ leafCallsList (ch :: chs) := by
  have h1 := allCompleteList_parts h
  have := leafCalls_pos ch h1.1
  simp only [leafCallsList]
  omega

theorem length_le_leafCallsList : ∀ cs : List Invocation,
    allCompleteList cs = true → cs.length ≤ leafCallsList cs := by
  intro cs
  induction cs with
  | nil => intro _; simp [leafCallsList]
  | cons c rest ih =>
    intro h
    have h1 := allCompleteList_parts h
    have h2 := leafCalls_pos c h1.1
    have h3 := ih h1.2
    simp only [leafCallsList, List.length_cons]
    omega

mutual

theorem removeLeaves_pos : ∀ (inv : Invocation) (n : Nat),
    allComplete inv = true → ∀ m, (removeLeaves inv n).2 = m + 1 →
    (removeLeaves inv n).1 = none
  | inv, 0 => by
    intro hc m h
    simp [removeLeaves] at h
  | .mk c i o r rh [], n + 1 => by
    intro hc m h
    simp only [allComplete, Bool.and_eq_true] at hc
    simp [removeLeaves, hc.1]
  | .mk c i o r rh (ch :: chs), n + 1 => by
    intro hc m h
    simp only [allComplete, Bool.and_eq_true] at hc
    simp only [removeLeaves] at h ⊢
    rcases hq : removeLeavesList (ch :: chs) (n + 1) with ⟨l2, k2⟩
    rw [hq] at h
    try dsimp only at h ⊢
    cases l2 with
    | nil => rfl
    | cons c2 cs2 =>
      try dsimp only at h
      have := removeLeavesList_pos (ch :: chs) (n + 1) hc.2 m (by rw [hq]; exact h)
      rw [hq] at this
      cases this

theorem removeLeavesList_pos : ∀ (cs : List Invocation) (n : Nat),
    allCompleteList cs = true → ∀ m, (removeLeavesList cs n).2 = m + 1 →
    (removeLeavesList cs n).1 = []
  | [], n => by
    intro hc m h
    rfl
  | c :: rest, n => by
    intro hc m h
    have hparts := allCompleteList_parts hc
    simp only [removeLeavesList] at h ⊢
    rcases hq : removeLeavesList rest n with ⟨l2, k2⟩
    rw [hq] at h
    try dsimp only at h ⊢
    cases k2 with
    | zero =>
      try dsimp only at h
      omega
    | succ m2 =>
      try dsimp only at h ⊢
      have hnil : l2 = [] := by
        have := removeLeavesList_pos rest n hparts.2 m2 (by rw [hq])
        rwa [hq] at this
      subst hnil
      rcases hr : removeLeaves c (m2 + 1) with ⟨ropt, n2⟩
      rw [hr] at h
      try dsimp only at h ⊢
      cases ropt with
      | none => rfl
      | some c2 =>
        try dsimp only at h
        have := removeLeaves_pos c (m2 + 1) hparts.1 m (by rw [hr]; exact h)
        rw [hr] at this
        simp at this

end

mutual

theorem removeLeaves_rew : ∀ (inv : Invocation) (n : Nat),
    allComplete inv = true →
    ∀ r, (removeLeaves inv (n + 1)).1 = some r → RewNode inv r
  | .mk c i o ra rh [], n => by
    intro hc r h
    simp only [allComplete, Bool.and_eq_true] at hc
    simp [removeLeaves, hc.1] at h
  | .mk c i o ra rh (ch :: chs), n => by
    intro hc r h
    simp only [allComplete, Bool.and_eq_true] at hc
    simp only [removeLeaves] at h
    rcases hq : removeLeavesList (ch :: chs) (n + 1) with ⟨l2, k2⟩
    rw [hq] at h
    try dsimp only at h
    cases l2 with
    | nil => cases h
    | cons c2 cs2 =>
      try dsimp only at h
      cases h
      refine RewNode.mk rfl rfl rfl rfl ?_
      show RewTail (ch :: chs) (c2 :: cs2)
      have := removeLeavesList_rew (ch :: chs) (n + 1) hc.2
      rw [hq] at this
      exact this

theorem removeLeavesList_rew : ∀ (cs : List Invocation) (n : Nat),
    allCompleteList cs = true → RewTail cs (removeLeavesList cs n).1
  | [], n => by
    intro _
    exact RewTail.nil []
  | c :: rest, n => by
    intro hc
    have hparts := allCompleteList_parts hc
    simp only [removeLeavesList]
    rcases hq : removeLeavesList rest n with ⟨l2, k2⟩
    try dsimp only
    cases k2 with
    | zero =>
      try dsimp only
      have := removeLeavesList_rew rest n hparts.2
      rw [hq] at this
      exact RewTail.cons c this
    | succ m =>
      try dsimp only
      have hnil : l2 = [] := by
        have := removeLeavesList_pos rest n hparts.2 m (by rw [hq])
        rwa [hq] at this
      subst hnil
      rcases hr : removeLeaves c (m + 1) with ⟨ropt, n2⟩
      try dsimp only
      cases ropt with
      | none => exact RewTail.nil _
      | some c2 =>
        exact RewTail.part rest (removeLeaves_rew c m hparts.1 c2 (by rw [hr]))

end

mutual

theorem removeLeaves_count : ∀ (inv : Invocation) (n : Nat),
    allComplete inv = true →
    (removeLeaves inv n).2 = n - min n (leafCalls inv) ∧
    (∀ r, (removeLeaves inv n).1 = some r →
      leafCalls r = leafCalls inv - n ∧ 1 ≤ leafCalls r) ∧
    ((removeLeaves inv n).1 = none → leafCalls inv ≤ n)
  | inv, 0 => by
    intro hc
    refine ⟨by simp [removeLeaves], ?_, ?_⟩
    · intro r h
      simp only [removeLeaves] at h
      cases h
      exact ⟨by omega, leafCalls_pos inv hc⟩
    · intro h
      simp [removeLeaves] at h
  | .mk c i o r rh [], n + 1 => by
    intro hc
    simp only [allComplete, Bool.and_eq_true] at hc
    have hl : leafCalls (.mk c i o r rh []) = 1 := by simp [leafCalls, hc.1]
    refine ⟨?_, ?_, ?_⟩
    · simp only [removeLeaves, hc.1, if_pos, hl]
      omega
    · intro r2 h
      simp only [removeLeaves, hc.1, if_pos] at h
      cases h
    · intro _
      omega
  | .mk c i o r rh (ch :: chs), n + 1 => by
    intro hc
    simp only [allComplete, Bool.and_eq_true] at hc
    have hlist := removeLeavesList_count (ch :: chs) (n + 1) hc.2
    have hl : leafCalls (.mk c i o r rh (ch :: chs)) = leafCallsList (ch :: chs) := rfl
    simp only [removeLeaves]
    rcases hq : removeLeavesList (ch :: chs) (n + 1) with ⟨l2, k2⟩
    rw [hq] at hlist
    try dsimp only at hlist
    try dsimp only
    cases l2 with
    | nil =>
      refine ⟨?_, ?_, ?_⟩
      · rw [hl]
        exact hlist.1
      · intro r2 h
        cases h
      · intro _
        rw [hl]
        have h2 := hlist.2.1
        simp only [leafCallsList] at h2 ⊢
        omega
    | cons c2 cs2 =>
      refine ⟨?_, ?_, ?_⟩
      · rw [hl]
        exact hlist.1
      · intro r2 h
        cases h
        have hmem := hlist.2.2 c2 (by simp)
        have h2 := hlist.2.1
        have hr2 : leafCalls (Invocation.mk c i none none false (c2 :: cs2)) =
            leafCallsList (c2 :: cs2) := rfl
        rw [hr2, hl]
        constructor
        · simp only [leafCallsList] at h2 ⊢
          omega
        · simp only [leafCallsList]
          omega
      · intro h
        cases h

theorem removeLeavesList_count : ∀ (cs : List Invocation) (n : Nat),
    allCompleteList cs = true →
    (removeLeavesList cs n).2 = n - min n (leafCallsList cs) ∧
    leafCallsList (removeLeavesList cs n).1 =
      leafCallsList cs - min n (leafCallsList cs) ∧
    (∀ x ∈ (removeLeavesList cs n).1, 1 ≤ leafCalls x)
  | [], n => by
    intro hc
    refine ⟨?_, ?_, ?_⟩
    · simp [removeLeavesList, leafCallsList]
    · simp [removeLeavesList, leafCallsList]
    · intro x hx
      cases hx
  | c :: rest, n => by
    intro hc
    have hparts := allCompleteList_parts hc
    have hcpos := leafCalls_pos c hparts.1
    have ihrest := removeLeavesList_count rest n hparts.2
    simp only [removeLeavesList]
    rcases hq : removeLeavesList rest n with ⟨l2, k2⟩
    rw [hq] at ihrest
    try dsimp only at ihrest
    try dsimp only
    cases k2 with
    | zero =>
      try dsimp only
      have h1 := ihrest.1
      have h2 := ihrest.2.1
      refine ⟨?_, ?_, ?_⟩
      · simp only [leafCallsList]
        omega
      · simp only [leafCallsList]
        simp only [leafCallsList] at h2
        omega
      · intro x hx
        rcases List.mem_cons.mp hx with rfl | hx2
        · exact hcpos
        · exact ihrest.2.2 x hx2
    | succ m2 =>
      try dsimp only
      have hnil : l2 = [] := by
        have := removeLeavesList_pos rest n hparts.2 m2 (by rw [hq])
        rwa [hq] at this
      subst hnil
      have h1 := ihrest.1
      have h2 := ihrest.2.1
      simp only [leafCallsList] at h2
      have ihc := removeLeaves_count c (m2 + 1) hparts.1
      rcases hr : removeLeaves c (m2 + 1) with ⟨ropt, n2⟩
      rw [hr] at ihc
      try dsimp only at ihc
      try dsimp only
      cases ropt with
      | none =>
        try dsimp only
        have hle := ihc.2.2 rfl
        have hA := ihc.1
        refine ⟨?_, ?_, ?_⟩
        · simp only [leafCallsList]
          omega
        · simp only [leafCallsList]
          omega
        · intro x hx
          cases hx
      | some c2 =>
        try dsimp only
        have hsome := ihc.2.1 c2 rfl
        have hA := ihc.1
        refine ⟨?_, ?_, ?_⟩
        · simp only [leafCallsList]
          omega
        · simp only [leafCallsList]
          omega
        · intro x hx
          rcases List.mem_cons.mp hx with rfl | hx2
          · exact hsome.2
          · cases hx2

end

theorem allCompleteList_append {l1 l2 : List Invocation} :
    allCompleteList (l1 ++ l2) = (allCompleteList l1 && allCompleteList l2) := by
  induction l1 with
  | nil => simp [allCompleteList]
  | cons c cs ih => simp [allCompleteList, ih, Bool.and_assoc]

theorem runChildWith_noOv_complete
    {rerun : Invocation → Except EngErr Invocation} {u : Invocation}
    (h : u.complete = true) : runChildWith noOv rerun u = .ok u := by
  unfold runChildWith
  rcases ho : u.output with _ | v
  · simp only [Invocation.complete, ho, Option.isSome_none, Bool.false_or] at h
    rcases hr : u.raised with _ | e
    · rw [hr] at h
      simp at h
    · simp [ho, hr, noOv]
  · simp [ho]

theorem rewTail_append_split : ∀ (xs ys ts : List Invocation),
    RewTail (xs ++ ys) ts →
    RewTail xs ts ∨ ∃ ts2, ts = xs ++ ts2 ∧ RewTail ys ts2 := by
  intro xs
  induction xs with
  | nil =>
    intro ys ts h
    exact .inr ⟨ts, rfl, h⟩
  | cons x xs2 ih =>
    intro ys ts h
    cases h with
    | nil => exact .inl (RewTail.nil _)
    | part rest hrew => exact .inl (RewTail.part _ hrew)
    | cons _ htail =>
      rcases ih ys _ htail with h2 | ⟨ts2, rfl, h3⟩
      · exact .inl (RewTail.cons x h2)
      · exact .inr ⟨ts2, rfl, h3⟩

theorem gatherRestore {rc : Invocation → Except EngErr Invocation}
    {ex : String → FieldValue → Except EngErr Invocation}
    (H1 : ∀ u : Invocation, u.complete = true → rc u = .ok u)
    (H2 : ∀ u t2 : Invocation, (∃ a b, ex a b = .ok u) → allComplete u = true →
      RewNode u t2 → rc t2 = .ok u)
    (Hexf : ∀ (a : String) (b : FieldValue) (u : Invocation), ex a b = .ok u →
      u.invokable = a ∧ u.inputVal = b) :
    ∀ (calls : List (String × FieldValue)) (chs : List Invocation)
      (outs : List Outcome),
      runGather rc ex calls [] = .ok (chs, outs, []) →
      allCompleteList chs = true →
      ∀ ts, RewTail chs ts → runGather rc ex calls ts = .ok (chs, outs, []) := by
  intro calls
  induction calls with
  | nil =>
    intro chs outs h hcomp ts hrew
    cases h
    have := rewTail_nil_inv hrew
    subst this
    rfl
  | cons q qs ih =>
    rcases q with ⟨c, i⟩
    intro chs outs h hcomp ts hrew
    simp only [runGather] at h
    rcases hx : ex c i with err | child
    · rw [hx] at h; cases h
    · rw [hx] at h
      dsimp only at h
      rcases hrec : runGather rc ex qs [] with err | p2
      · rw [hrec] at h; cases h
      · have hp22 : p2.2.2 = [] := runGather_nil qs p2 hrec
        rcases p2 with ⟨chs2, outs2, rest2⟩
        dsimp only at hp22
        subst hp22
        rw [hrec] at h
        dsimp only [Except.map] at h
        cases h
        have hparts := allCompleteList_parts hcomp
        have hf := Hexf c i child hx
        have horig : runGather rc ex qs [] = .ok (chs2, outs2, []) := hrec
        cases hrew with
        | nil =>
          show runGather rc ex ((c, i) :: qs) [] = _
          simp only [runGather]
          rw [hx]
          dsimp only
          rw [horig]
          dsimp only [Except.map]
        | part rest hrewN =>
          show runGather rc ex ((c, i) :: qs) [_] = _
          simp only [runGather]
          rcases hrewN with ⟨g1, g2, g3, g4, g5⟩
          rw [if_pos ⟨by rw [g1, hf.1], by rw [g2, hf.2]⟩]
          rw [H2 child _ ⟨c, i, hx⟩ hparts.1 ⟨g1, g2, g3, g4, g5⟩]
          dsimp only
          rw [horig]
          dsimp only [Except.map]
        | cons _ htail =>
          show runGather rc ex ((c, i) :: qs) (child :: _) = _
          simp only [runGather]
          rw [if_pos ⟨hf.1, by rw [hf.2]⟩]
          rw [H1 child (allComplete_parts hparts.1).1]
          dsimp only
          rw [ih chs2 outs2 horig hparts.2 _ htail]
          dsimp only [Except.map]

theorem gatherRestoreExt {rc : Invocation → Except EngErr Invocation}
    {ex : String → FieldValue → Except EngErr Invocation}
    (H1 : ∀ u : Invocation, u.complete = true → rc u = .ok u)
    (Hexf : ∀ (a : String) (b : FieldValue) (u : Invocation), ex a b = .ok u →
      u.invokable = a ∧ u.inputVal = b) :
    ∀ (calls : List (String × FieldValue)) (chs : List Invocation)
      (outs : List Outcome),
      runGather rc ex calls [] = .ok (chs, outs, []) →
      allCompleteList chs = true →
      ∀ ts2, runGather rc ex calls (chs ++ ts2) = .ok (chs, outs, ts2) := by
  intro calls
  induction calls with
  | nil =>
    intro chs outs h hcomp ts2
    cases h
    rfl
  | cons q qs ih =>
    rcases q with ⟨c, i⟩
    intro chs outs h hcomp ts2
    simp only [runGather] at h
    rcases hx : ex c i with err | child
    · rw [hx] at h; cases h
    · rw [hx] at h
      dsimp only at h
      rcases hrec : runGather rc ex qs [] with err | p2
      · rw [hrec] at h; cases h
      · have hp22 : p2.2.2 = [] := runGather_nil qs p2 hrec
        rcases p2 with ⟨chs2, outs2, rest2⟩
        dsimp only at hp22
        subst hp22
        rw [hrec] at h
        dsimp only [Except.map] at h
        cases h
        have hparts := allCompleteList_parts hcomp
        have hf := Hexf c i child hx
        have horig : runGather rc ex qs [] = .ok (chs2, outs2, []) := hrec
        show runGather rc ex ((c, i) :: qs) (child :: (chs2 ++ ts2)) = _
        simp only [runGather]
        rw [if_pos ⟨hf.1, by rw [hf.2]⟩]
        rw [H1 child (allComplete_parts hparts.1).1]
        dsimp only
        rw [ih chs2 outs2 horig hparts.2 ts2]
        dsimp only [Except.map]

theorem loopRestore {rc : Invocation → Except EngErr Invocation}
    {ex : String → FieldValue → Except EngErr Invocation}
    (H1 : ∀ u : Invocation, u.complete = true → rc u = .ok u)
    (H2 : ∀ u t2 : Invocation, (∃ a b, ex a b = .ok u) → allComplete u = true →
      RewNode u t2 → rc t2 = .ok u)
    (Hexf : ∀ (a : String) (b : FieldValue) (u : Invocation), ex a b = .ok u →
      u.invokable = a ∧ u.inputVal = b) :
    ∀ (body : Body) (nm : String) (inp : FieldValue)
      (acc ts suf : List Invocation) (res : Invocation),
      runLoop rc ex body nm inp acc [] = .ok res →
      res.children = acc ++ suf →
      allCompleteList suf = true →
      RewTail suf ts →
      runLoop rc ex body nm inp acc ts = .ok res := by
  intro body
  induction body with
  | ret v =>
    intro nm inp acc ts suf res h hchil hcomp hrew
    simp only [runLoop] at h ⊢
    exact h
  | raise e =>
    intro nm inp acc ts suf res h hchil hcomp hrew
    simp only [runLoop] at h ⊢
    exact h
  | call c i k ihk =>
    intro nm inp acc ts suf res h hchil hcomp hrew
    simp only [runLoop] at h
    rcases hx : ex c i with err | child
    · rw [hx] at h; cases h
    · rw [hx] at h
      dsimp only at h
      have hf := Hexf c i child hx
      rcases ho : child.output with _ | v
      · -- child raised or unfinished: the node finalizes with the propagated condition
        rw [ho] at h
        dsimp only at h
        have hres : res = .mk nm inp none child.raised false (acc ++ [child]) := by
          cases h; rfl
        have hsufeq : suf = [child] := by
          have h2 : acc ++ suf = acc ++ [child] := by
            rw [← hchil, hres]
            rfl
          exact List.append_cancel_left h2
        subst hsufeq
        have hcc : allComplete child = true := (allCompleteList_parts hcomp).1
        cases hrew with
        | nil =>
          simp only [runLoop]
          rw [hx]
          dsimp only
          rw [ho]
          dsimp only
          exact h
        | part rest hrewN =>
          simp only [runLoop]
          rcases hrewN with ⟨g1, g2, g3, g4, g5⟩
          rw [if_pos ⟨by rw [g1, hf.1], by rw [g2, hf.2]⟩]
          rw [H2 child _ ⟨c, i, hx⟩ hcc ⟨g1, g2, g3, g4, g5⟩]
          dsimp only
          rw [ho]
          dsimp only
          exact h
        | cons _ htail =>
          have := rewTail_nil_inv htail
          subst this
          simp only [runLoop]
          rw [if_pos ⟨hf.1, by rw [hf.2]⟩]
          rw [H1 child (allComplete_parts hcc).1]
          dsimp only
          rw [ho]
          dsimp only
          exact h
      · -- child returned: the loop continues with the next call
        rw [ho] at h
        dsimp only at h
        rcases (runLoop_shape (k v) nm inp (acc ++ [child]) [] res h).2.2
          with ⟨suf2, hsuf2⟩
        have hsufeq : suf = child :: suf2 := by
          have h2 : acc ++ suf = acc ++ (child :: suf2) := by
            rw [← hchil, hsuf2]
            simp
          exact List.append_cancel_left h2
        subst hsufeq
        have hcc : allComplete child = true := (allCompleteList_parts hcomp).1
        have hcomp2 : allCompleteList suf2 = true := (allCompleteList_parts hcomp).2
        cases hrew with
        | nil =>
          simp only [runLoop]
          rw [hx]
          dsimp only
          rw [ho]
          dsimp only
          exact h
        | part rest hrewN =>
          simp only [runLoop]
          rcases hrewN with ⟨g1, g2, g3, g4, g5⟩
          rw [if_pos ⟨by rw [g1, hf.1], by rw [g2, hf.2]⟩]
          rw [H2 child _ ⟨c, i, hx⟩ hcc ⟨g1, g2, g3, g4, g5⟩]
          dsimp only
          rw [ho]
          dsimp only
          exact h
        | cons _ htail =>
          simp only [runLoop]
          rw [if_pos ⟨hf.1, by rw [hf.2]⟩]
          rw [H1 child (allComplete_parts hcc).1]
          dsimp only
          rw [ho]
          dsimp only
          exact ihk v nm inp (acc ++ [child]) _ suf2 res h hsuf2 hcomp2 htail
  | gather calls k ihk =>
    intro nm inp acc ts suf res h hchil hcomp hrew
    simp only [runLoop] at h
    rcases hg : runGather rc ex calls [] with err | p
    · rw [hg] at h; cases h
    · have hp22 : p.2.2 = [] := runGather_nil calls p hg
      rcases p with ⟨chs, outs, rest⟩
      dsimp only at hp22
      subst hp22
      rw [hg] at h
      dsimp only at h
      rcases (runLoop_shape (k outs) nm inp (acc ++ chs) [] res h).2.2
        with ⟨suf2, hsuf2⟩
      have hsufeq : suf = chs ++ suf2 := by
        have h2 : acc ++ suf = acc ++ (chs ++ suf2) := by
          rw [← hchil, hsuf2]
          simp
        exact List.append_cancel_left h2
      subst hsufeq
      have hcomp2 : allCompleteList chs = true ∧ allCompleteList suf2 = true := by
        rw [allCompleteList_append, Bool.and_eq_true] at hcomp
        exact hcomp
      have hchsc := hcomp2.1
      have hsuf2c := hcomp2.2
      rcases rewTail_append_split chs suf2 ts hrew with hin | ⟨ts2, rfl, hrew2⟩
      · simp only [runLoop]
        rw [gatherRestore H1 H2 Hexf calls chs outs hg hchsc ts hin]
        dsimp only
        exact h
      · simp only [runLoop]
        rw [gatherRestoreExt H1 Hexf calls chs outs hg hchsc ts2]
        dsimp only
        exact ihk outs nm inp (acc ++ chs) ts2 suf2 res h hsuf2 hsuf2c hrew2
  | spawn calls k ihk =>
    intro nm inp acc ts suf res h hchil hcomp hrew
    cases calls with
    | nil =>
      simp only [runLoop, spawnConsume] at h ⊢
      simp only [List.append_nil] at h ⊢
      exact ihk nm inp acc ts suf res h hchil hcomp hrew
    | cons q qs =>
      rcases q with ⟨c, i⟩
      simp only [runLoop, spawnConsume] at h
      rcases (runLoop_shape k nm inp
        (acc ++ (blankInv c i :: (spawnConsume qs []).1)) [] res h).2.2
        with ⟨suf2, hsuf2⟩
      have hsufeq : suf = blankInv c i :: ((spawnConsume qs []).1 ++ suf2) := by
        have h2 : acc ++ suf =
            acc ++ (blankInv c i :: ((spawnConsume qs []).1 ++ suf2)) := by
          rw [← hchil, hsuf2]
          simp
        exact List.append_cancel_left h2
      rw [hsufeq] at hcomp
      simp [allCompleteList, allComplete, blankInv] at hcomp

theorem restoreNode (env : Env) : ∀ (d : Nat) (c t : Invocation),
    runNode env noOv d (blankInv c.invokable c.inputVal) = .ok c →
    allComplete c = true → RewNode c t →
    runNode env noOv d t = .ok c := by
  intro d
  induction d with
  | zero =>
    intro c t horig hcomp hrew
    simp only [runNode, blankInv, Invocation.output, Option.isSome_none,
      Bool.false_eq_true, if_false, Except.ok.injEq] at horig
    rw [← horig] at hcomp
    simp [allComplete] at hcomp
  | succ d ih =>
    intro c t horig hcomp hrew
    rcases hrew with ⟨hf1, hf2, hto, htr, hch⟩
    simp only [runNode, blankInv, Invocation.output, Invocation.invokable,
      Invocation.inputVal, Option.isSome_none, Bool.false_eq_true, if_false]
      at horig
    simp only [runNode, hto, Option.isSome_none, Bool.false_eq_true, if_false]
    rw [hf1, hf2]
    refine loopRestore ?_ ?_ ?_ (env c.invokable c.inputVal) c.invokable
      c.inputVal [] t.children c.children c horig ?_
      (allComplete_parts hcomp).2 hch
    · intro u hu
      exact runChildWith_noOv_complete hu
    · intro u t2 hex hcompu hrewu
      rcases hex with ⟨a, b, hx⟩
      have hfu := runNode_fields env noOv d _ _ hx
      rcases hrewu with ⟨g1, g2, g3, g4, g5⟩
      show runChildWith noOv (runNode env noOv d) t2 = .ok u
      unfold runChildWith
      rw [if_neg (by simp [g3])]
      rw [g4]
      exact ih u t2 (by
        have hb : blankInv u.invokable u.inputVal = blankInv a b := by
          simp only [blankInv, Invocation.invokable, Invocation.inputVal] at hfu ⊢
          rw [hfu.1, hfu.2]
        rw [hb]
        exact hx) hcompu ⟨g1, g2, g3, g4, g5⟩
    · intro a b u hx
      exact runNode_fields env noOv d _ _ hx
    · simp [Invocation.children]

/-- C5: for every completed invocation — a fully finalized journal with k
children — and every n ≤ k, rewind(n) yields a new invocation with the last n
recorded leaf calls (depth-first from the right) removed and the root response
cleared, and a subsequent replay restores the original invocation, so in
particular the first k - n children of the replayed invocation have digests
equal to the original invocation's children. -/
theorem rewind_replay_monotone (env : Env) (d : Nat) (c0 : String)
    (i0 : FieldValue) (n : Nat) (inv : Invocation)
    (hrun : invoke env d c0 i0 = .ok inv)
    (_hout : inv.output.isSome = true)
    (hcomp : allComplete inv = true)
    (hn : n ≤ inv.children.length) :
    leafCallsList (inv.rewind n).children = leafCallsList inv.children - n ∧
    (inv.rewind n).output = none ∧ (inv.rewind n).raised = none ∧
    ∃ inv2, (inv.rewind n).replay env noOv d = .ok inv2 ∧
      (inv2.children.take (inv.children.length - n)).map digestInv =
        (inv.children.take (inv.children.length - n)).map digestInv := by
  have hchc : allCompleteList inv.children = true := (allComplete_parts hcomp).2
  have hcount := removeLeavesList_count inv.children n hchc
  have hlen := length_le_leafCallsList inv.children hchc
  have hmin : min n (leafCallsList inv.children) = n := by omega
  refine ⟨?_, rfl, rfl, inv, ?_, rfl⟩
  · show leafCallsList (removeLeavesList inv.children n).1 = _
    rw [hcount.2.1, hmin]
  · have hfields := runNode_fields env noOv d _ _ hrun
    have horig : runNode env noOv d (blankInv inv.invokable inv.inputVal) = .ok inv := by
      have hb : blankInv inv.invokable inv.inputVal = blankInv c0 i0 := by
        simp only [blankInv, Invocation.invokable, Invocation.inputVal] at hfields ⊢
        rw [hfields.1, hfields.2]
      rw [hb]
      exact hrun
    have hrew : RewNode inv (inv.rewind n) := by
      refine RewNode.mk rfl rfl rfl rfl ?_
      show RewTail inv.children (removeLeavesList inv.children n).1
      exact removeLeavesList_rew inv.children n hchc
    exact restoreNode env d inv (inv.rewind n) horig hcomp hrew

/-- Witness for C5: a journaled run with two recorded child calls, rewound by
one call and replayed; the replay completes and the first child keeps its
digest. -/
theorem rewind_replay_monotone_witness :
    leafCallsList ((Invocation.mk ("f") .null (some .null) none false
        [.mk ("g") .null (some .null) none false [],
         .mk ("g") .null (some .null) none false []]).rewind 1).children =
      leafCallsList (Invocation.mk ("f") .null (some .null) none false
        [.mk ("g") .null (some .null) none false [],
         .mk ("g") .null (some .null) none false []]).children - 1 ∧
    ((Invocation.mk ("f") .null (some .null) none false
        [.mk ("g") .null (some .null) none false [],
         .mk ("g") .null (some .null) none false []]).rewind 1).output = none ∧
    ((Invocation.mk ("f") .null (some .null) none false
        [.mk ("g") .null (some .null) none false [],
         .mk ("g") .null (some .null) none false []]).rewind 1).raised = none ∧
    ∃ inv2,
      ((Invocation.mk ("f") .null (some .null) none false
          [.mk ("g") .null (some .null) none false [],
           .mk ("g") .null (some .null) none false []]).rewind 1).replay
        (fun c _ => if c = ("f") then
          .call ("g") .null (fun _ => .call ("g") .null (fun _ => .ret .null))
          else .ret .null) noOv 3 = .ok inv2 ∧
      (inv2.children.take
        ((Invocation.mk ("f") .null (some .null) none false
          [.mk ("g") .null (some .null) none false [],
           .mk ("g") .null (some .null) none false []]).children.length - 1)).map
        digestInv =
      ((Invocation.mk ("f") .null (some .null) none false
        [.mk ("g") .null (some .null) none false [],
         .mk ("g") .null (some .null) none false []]).children.take
        ((Invocation.mk ("f") .null (some .null) none false
          [.mk ("g") .null (some .null) none false [],
           .mk ("g") .null (some .null) none false []]).children.length - 1)).map
        digestInv :=
  rewind_replay_monotone
    (fun c _ => if c = ("f") then
      .call ("g") .null (fun _ => .call ("g") .null (fun _ => .ret .null))
      else .ret .null) 3 ("f") .null 1
    (.mk ("f") .null (some .null) none false
      [.mk ("g") .null (some .null) none false [],
       .mk ("g") .null (some .null) none false []])
    (by rfl) (by rfl) (by rfl) (by decide)
